import Mathlib

/-!
Verification of the Peloton offer pool, resource-manager task tracker and
job-manager handlers against their natural-language specification.

The Go code is shallowly embedded: Go maps become association lists on
string keys (with map equality stated extensionally via lookup where
needed), float64 scalar vectors become integer vectors (the spec admits
non-negative reals or integers, and every claim here is about exact
componentwise arithmetic, insensitive to the scalar domain), time instants
become natural numbers, and fallible operations return Except.  The
offer-pool operations are translated from the offerpool package source
(offerPool.AddOffers, RescindOffer, RemoveExpiredOffers, ClaimForPlace,
ClaimForLaunch, ReturnUnusedOffers); the hostmgr scalar and summary
packages and the offerpool matcher, whose sources are not available, are
modelled from the specification and are marked as such on each
definition.
-/

namespace Peloton

/-! ## Association lists standing in for Go maps -/

/-- Association list on string keys, the embedding of a Go map.  Keys are
unique in every list built by the operations below. -/
abbrev SMap (V : Type) := List (String × V)

/-- Lookup of a key, the embedding of Go map indexing. -/
def lookupA {V : Type} (k : String) : SMap V → Option V
  | [] => none
  | (k', v) :: t => if k' = k then some v else lookupA k t

/-- Removal of a key, the embedding of Go delete: removes every binding of
the key. -/
def eraseA {V : Type} (k : String) : SMap V → SMap V
  | [] => []
  | (k', v) :: t => if k' = k then eraseA k t else (k', v) :: eraseA k t

/-- Insertion, the embedding of Go map assignment: replaces the first
binding in place, or appends a new binding at the end. -/
def insertA {V : Type} (k : String) (v : V) : SMap V → SMap V
  | [] => [(k, v)]
  | (k', v') :: t => if k' = k then (k, v) :: t else (k', v') :: insertA k v t

/-- Key membership as a Bool, the embedding of the Go comma-ok idiom. -/
def memberA {V : Type} (k : String) (m : SMap V) : Bool :=
  (lookupA k m).isSome

instance exceptDecEq {ε α : Type} [DecidableEq ε] [DecidableEq α] :
    DecidableEq (Except ε α) := fun a b =>
  match a, b with
  | Except.error e₁, Except.error e₂ =>
      if h : e₁ = e₂ then isTrue (h ▸ rfl)
      else isFalse fun hc => h (Except.error.inj hc)
  | Except.error _, Except.ok _ => isFalse fun hc => Except.noConfusion hc
  | Except.ok _, Except.error _ => isFalse fun hc => Except.noConfusion hc
  | Except.ok v₁, Except.ok v₂ =>
      if h : v₁ = v₂ then isTrue (h ▸ rfl)
      else isFalse fun hc => h (Except.ok.inj hc)

/-! ## Scalar resources

Modelled from the spec: the hostmgr scalar package is not under src.
Section 3 describes a record of non-negative scalar quantities with
componentwise Add, Subtract and Contains, where Subtract of an amount that
is not contained logs loudly but proceeds saturating at zero. -/

/-- Modelled from the spec: scalar.Resources, the vector of scalar
quantities (cpu, mem, disk, gpu) carried by offers and accounting
buckets. -/
structure Resources where
  cpu : ℤ
  mem : ℤ
  disk : ℤ
  gpu : ℤ
  deriving DecidableEq, Repr

namespace Resources

/-- Modelled from the spec: the zero resource vector. -/
def zero : Resources := ⟨0, 0, 0, 0⟩

/-- Modelled from the spec: componentwise addition (scalar.Resources.Add). -/
def add (a b : Resources) : Resources :=
  ⟨a.cpu + b.cpu, a.mem + b.mem, a.disk + b.disk, a.gpu + b.gpu⟩

/-- Modelled from the spec: componentwise containment
(scalar.Resources.Contains), componentwise greater-or-equal. -/
def contains (a b : Resources) : Prop :=
  b.cpu ≤ a.cpu ∧ b.mem ≤ a.mem ∧ b.disk ≤ a.disk ∧ b.gpu ≤ a.gpu

instance : DecidablePred fun p : Resources × Resources => p.1.contains p.2 :=
  fun _ => by unfold contains; infer_instance

instance decContains (a b : Resources) : Decidable (a.contains b) := by
  unfold contains; infer_instance

/-- Modelled from the spec: componentwise subtraction saturating at zero
(scalar.Resources.Subtract; a violation of Contains is a loud error but
proceeds saturating at zero). -/
def sub (a b : Resources) : Resources :=
  ⟨max (a.cpu - b.cpu) 0, max (a.mem - b.mem) 0,
   max (a.disk - b.disk) 0, max (a.gpu - b.gpu) 0⟩

/-- Nonnegativity of a resource vector; every vector the running system
stores is nonnegative. -/
def nonneg (a : Resources) : Prop :=
  0 ≤ a.cpu ∧ 0 ≤ a.mem ∧ 0 ≤ a.disk ∧ 0 ≤ a.gpu

instance decNonneg (a : Resources) : Decidable a.nonneg := by
  unfold nonneg; infer_instance

end Resources

/-! ## Host summaries

Modelled from the spec: the hostmgr summary package is not under src;
sections 3 and 4.2 describe the per-host state machine and offer bag. -/

/-- Modelled from the spec: summary.CacheStatus, the host status of the
per-host state machine (READY, PLACING, RESERVED). -/
inductive CacheStatus
  | readyOffer
  | placingOffer
  | reservedOffer
  deriving DecidableEq, Repr

/-- A cached Mesos offer: its id, its hostname and its scalar resources. -/
structure MOffer where
  oid : String
  hostname : String
  res : Resources
  deriving DecidableEq, Repr

/-- Modelled from the spec: scalar.FromOffer extracts the offer's scalar
resource vector. -/
def fromOffer (o : MOffer) : Resources := o.res

/-- Sum of the scalar resources of a list of offers. -/
def offersSum : List MOffer → Resources
  | [] => Resources.zero
  | o :: t => (fromOffer o).add (offersSum t)

/-- Modelled from the spec: scalar.FromOfferMap, the scalar sum over an
offer map. -/
def bagSum (m : SMap MOffer) : Resources := offersSum (m.map Prod.snd)

/-- Modelled from the spec: summary.HostSummary, a per-host status plus
the bag of offers currently cached for that host. -/
structure HostSummary where
  status : CacheStatus
  offers : SMap MOffer
  deriving DecidableEq, Repr

namespace HostSummary

/-- Modelled from the spec: summary.New creates an empty READY summary. -/
def new : HostSummary := ⟨CacheStatus.readyOffer, []⟩

/-- Modelled from the spec: HostSummary.HasAnyOffer. -/
def hasAnyOffer (s : HostSummary) : Bool := !s.offers.isEmpty

/-- Modelled from the spec: HostSummary.UnreservedAmount, the scalar sum
of the summary's (unreserved) offers. -/
def unreservedAmount (s : HostSummary) : Resources := bagSum s.offers

/-- Modelled from the spec: HostSummary.AddMesosOffer stores the offer in
the bag and reports the summary's status for the pool's accounting. -/
def addMesosOffer (s : HostSummary) (o : MOffer) : HostSummary × CacheStatus :=
  ({ s with offers := insertA o.oid o s.offers }, s.status)

/-- Modelled from the spec: HostSummary.RemoveMesosOffer removes the offer
from the bag, reporting the status and the removed offer if present. -/
def removeMesosOffer (s : HostSummary) (oid : String) :
    CacheStatus × Option MOffer × HostSummary :=
  (s.status, lookupA oid s.offers, { s with offers := eraseA oid s.offers })

/-- Modelled from the spec: HostSummary.CasStatus, the CAS-style status
mutator; it fails when the current status is not the expected one. -/
def casStatus (s : HostSummary) (old new : CacheStatus) : Except String HostSummary :=
  if s.status = old then Except.ok { s with status := new } else Except.error "Invalid status"

/-- Modelled from the spec: HostSummary.ClaimForLaunch empties the bag of
a PLACING summary and transitions it back to READY (spec section 4.1-4.2:
PLACING to terminal, summary emptied). -/
def claimForLaunch (s : HostSummary) : Except String (SMap MOffer × HostSummary) :=
  if s.status = CacheStatus.placingOffer then
    Except.ok (s.offers, { s with offers := [], status := CacheStatus.readyOffer })
  else Except.error "host status is not PLACING"

end HostSummary

/-! ## Host filter and matcher

Modelled from the spec: the offerpool Matcher source is not under src;
section 4.3 describes the match condition and the stop rule. -/

/-- Modelled from the spec: hostsvc.HostFilter restricted to the fields
the matcher consults here: quantity.max_hosts and the scalar resource
constraint. -/
structure HostFilter where
  maxHosts : Nat
  required : Resources
  deriving Repr

/-- Modelled from the spec: the matcher's per-host condition (section 4.3
item 1): the summary's status is READY and its resources contain the
filter's resource constraint. -/
def matchHost (f : HostFilter) (s : HostSummary) : Bool :=
  decide (s.status = CacheStatus.readyOffer ∧ s.unreservedAmount.contains f.required)

/-! ## Offer pool state and operations, translated from the offerpool
package source (src/unnamed/part_001). -/

/-- TimedOffer from the offerpool source: hostname and expiration of an
offer, as indexed by the flat timedOffers map. -/
structure TimedOffer where
  hostname : String
  expiration : Nat
  deriving DecidableEq, Repr

/-- State of the offerPool: the host summary index, the flat timed-offer
index, and the two accounting buckets.  Metrics, clients and locks are
omitted. -/
structure PoolState where
  hostOfferIndex : SMap HostSummary
  timedOffers : SMap TimedOffer
  readyResources : Resources
  placingResources : Resources
  deriving DecidableEq, Repr

/-- The freshly constructed pool (NewOfferPool). -/
def emptyPool : PoolState := ⟨[], [], Resources.zero, Resources.zero⟩

/-- Translation of offerpool incQuantity: plain addition on a bucket. -/
def incQuantity (r delta : Resources) : Resources := r.add delta

/-- Translation of offerpool decQuantity: logs when the bucket does not
contain the delta but proceeds with the saturating subtraction. -/
def decQuantity (r delta : Resources) : Resources := r.sub delta

/-- Translation of offerPool.addOffer / tryAddOffer: both add the offer to
its host's summary (creating the summary when the host is absent) and bump
the accounting bucket selected by the status AddMesosOffer returns; an
unrecognized status only logs. -/
def addOneOffer (P : PoolState) (o : MOffer) : PoolState :=
  let s := (lookupA o.hostname P.hostOfferIndex).getD HostSummary.new
  let r := s.addMesosOffer o
  let delta := fromOffer o
  let P' := { P with hostOfferIndex := insertA o.hostname r.1 P.hostOfferIndex }
  match r.2 with
  | CacheStatus.readyOffer =>
      { P' with readyResources := incQuantity P'.readyResources delta }
  | CacheStatus.placingOffer =>
      { P' with placingResources := incQuantity P'.placingResources delta }
  | CacheStatus.reservedOffer => P'

/-- Translation of offerPool.AddOffers: each offer is added to its host
summary, then every offer receives a timedOffers entry carrying its
hostname and the common expiration (now plus offerHoldTime, passed here as
one value). -/
def addOffers (P : PoolState) (offers : List MOffer) (expiration : Nat) : PoolState :=
  let P1 := offers.foldl addOneOffer P
  { P1 with
    timedOffers :=
      offers.foldl (fun t o => insertA o.oid ⟨o.hostname, expiration⟩ t) P1.timedOffers }

/-- Translation of offerPool.RescindOffer: looks the offer up in
timedOffers (absent: false, no change), deletes the timedOffers entry,
then removes the offer from the recorded host's summary, decrementing the
bucket matching the summary's status; when the recorded host is missing
from the index it returns false with the timedOffers entry already
deleted. -/
def rescindOffer (P : PoolState) (oid : String) : Bool × PoolState :=
  match lookupA oid P.timedOffers with
  | none => (false, P)
  | some t =>
    let P1 := { P with timedOffers := eraseA oid P.timedOffers }
    match lookupA t.hostname P1.hostOfferIndex with
    | none => (false, P1)
    | some s =>
      let r := s.removeMesosOffer oid
      let P2 := { P1 with hostOfferIndex := insertA t.hostname r.2.2 P1.hostOfferIndex }
      match r.2.1 with
      | none => (true, P2)
      | some off =>
        let delta := fromOffer off
        match r.1 with
        | CacheStatus.readyOffer =>
            (true, { P2 with readyResources := decQuantity P2.readyResources delta })
        | CacheStatus.placingOffer =>
            (true, { P2 with placingResources := decQuantity P2.placingResources delta })
        | CacheStatus.reservedOffer => (true, P2)

/-- Body of the second loop of offerPool.RemoveExpiredOffers: remove one
expired offer from its host's summary and decrement the bucket matching
the status.  When the recorded host is missing from the index the Go code
would fault on a nil summary; that branch leaves the state unchanged here
and is unreachable while every timed offer's host is indexed. -/
def removeExpiredStep (P : PoolState) (e : String × TimedOffer) : PoolState :=
  match lookupA e.2.hostname P.hostOfferIndex with
  | none => P
  | some s =>
    let r := s.removeMesosOffer e.1
    let P2 := { P with hostOfferIndex := insertA e.2.hostname r.2.2 P.hostOfferIndex }
    match r.2.1 with
    | none => P2
    | some off =>
      let delta := fromOffer off
      match r.1 with
      | CacheStatus.readyOffer =>
          { P2 with readyResources := decQuantity P2.readyResources delta }
      | CacheStatus.placingOffer =>
          { P2 with placingResources := decQuantity P2.placingResources delta }
      | CacheStatus.reservedOffer => P2

/-- Translation of offerPool.RemoveExpiredOffers: every timedOffers entry
strictly past its expiration is collected and deleted from timedOffers
(first loop, a map partition), then removed from its host summary (second
loop); returns the removed entries and how many timed offers remain. -/
def removeExpiredOffers (P : PoolState) (now : Nat) :
    SMap TimedOffer × PoolState × Nat :=
  let expired := P.timedOffers.filter (fun e => decide (e.2.expiration < now))
  let remaining := P.timedOffers.filter (fun e => !decide (e.2.expiration < now))
  let P1 := { P with timedOffers := remaining }
  let P2 := expired.foldl removeExpiredStep P1
  (expired, P2, remaining.length)

/-- One step of the ClaimForPlace loop over the host index: the matcher
skips every host once enough hosts are matched (spec section 4.3 stop
rule), otherwise a host passing the match condition is CAS-ed from READY
to PLACING and its offers are collected. -/
def claimStep (f : HostFilter) (acc : List (String × List MOffer) × SMap HostSummary)
    (e : String × HostSummary) : List (String × List MOffer) × SMap HostSummary :=
  if f.maxHosts ≤ acc.1.length then (acc.1, acc.2 ++ [e])
  else if matchHost f e.2 then
    (acc.1 ++ [(e.1, e.2.offers.map Prod.snd)],
     acc.2 ++ [(e.1, { e.2 with status := CacheStatus.placingOffer })])
  else (acc.1, acc.2 ++ [e])

/-- Scalar sum over a hostname-to-offers map, as ClaimForPlace computes
its accounting delta. -/
def mapDelta : List (String × List MOffer) → Resources
  | [] => Resources.zero
  | e :: t => (offersSum e.2).add (mapDelta t)

/-- Translation of offerPool.ClaimForPlace: a nil filter is an error;
otherwise the matcher walks the host index until enough hosts are matched,
and when any host was matched the offers' scalar sum moves from the ready
bucket to the placing bucket. -/
def claimForPlace (P : PoolState) (f? : Option HostFilter) :
    Except String (List (String × List MOffer) × PoolState) :=
  match f? with
  | none => Except.error "empty HostFilter passed in"
  | some f =>
    let r := P.hostOfferIndex.foldl (claimStep f) ([], [])
    let delta := mapDelta r.1
    if 0 < r.1.length then
      Except.ok (r.1, { P with
        hostOfferIndex := r.2,
        placingResources := incQuantity P.placingResources delta,
        readyResources := decQuantity P.readyResources delta })
    else
      Except.ok (r.1, { P with hostOfferIndex := r.2 })

/-- Translation of offerPool.ClaimForLaunch (unreserved path): claim the
summary's offers for launch (the summary must be PLACING), delete each
claimed offer id from timedOffers, and decrement the placing bucket by the
claimed offers' scalar sum.  A hostname absent from the index would fault
in Go (nil summary); modelled as an error. -/
def claimForLaunchPool (P : PoolState) (hostname : String) :
    Except String (SMap MOffer × PoolState) :=
  match lookupA hostname P.hostOfferIndex with
  | none => Except.error "host not found in hostOfferIndex"
  | some s =>
    match s.claimForLaunch with
    | Except.error e => Except.error e
    | Except.ok r =>
      let timed' := r.1.foldl (fun t e => eraseA e.1 t) P.timedOffers
      let delta := bagSum r.1
      Except.ok (r.1, { P with
        hostOfferIndex := insertA hostname r.2 P.hostOfferIndex,
        timedOffers := timed',
        placingResources := decQuantity P.placingResources delta })

/-- Translation of offerPool.ReturnUnusedOffers: an unknown hostname only
logs and succeeds without change; otherwise the summary is CAS-ed PLACING
to READY (failure is returned as the error, before any mutation) and the
summary's unreserved scalar sum moves from the placing bucket back to the
ready bucket. -/
def returnUnusedOffers (P : PoolState) (hostname : String) : Except String PoolState :=
  match lookupA hostname P.hostOfferIndex with
  | none => Except.ok P
  | some s =>
    match s.casStatus CacheStatus.placingOffer CacheStatus.readyOffer with
    | Except.error e => Except.error e
    | Except.ok s' =>
      let delta := s'.unreservedAmount
      Except.ok { P with
        hostOfferIndex := insertA hostname s' P.hostOfferIndex,
        placingResources := decQuantity P.placingResources delta,
        readyResources := incQuantity P.readyResources delta }

/-! ## Offer pool operation sequences -/

/-- One pool-mutating operation of the offer pool interface. -/
inductive PoolOp
  | add (offers : List MOffer) (expiration : Nat)
  | rescind (oid : String)
  | removeExpired (now : Nat)
  | claimPlace (f? : Option HostFilter)
  | claimLaunch (hostname : String)
  | returnUnused (hostname : String)

/-- Effect of one operation on the pool state, return values dropped.  An
operation that fails leaves the state unchanged, as the source mutates
nothing before returning its error. -/
def applyOp (P : PoolState) : PoolOp → PoolState
  | PoolOp.add offers exp => addOffers P offers exp
  | PoolOp.rescind oid => (rescindOffer P oid).2
  | PoolOp.removeExpired now => (removeExpiredOffers P now).2.1
  | PoolOp.claimPlace f? =>
      match claimForPlace P f? with
      | Except.ok r => r.2
      | Except.error _ => P
  | PoolOp.claimLaunch h =>
      match claimForLaunchPool P h with
      | Except.ok r => r.2
      | Except.error _ => P
  | PoolOp.returnUnused h =>
      match returnUnusedOffers P h with
      | Except.ok P' => P'
      | Except.error _ => P

/-- Pool state reached by a sequence of operations from the fresh pool. -/
def runOps (ops : List PoolOp) : PoolState := ops.foldl applyOp emptyPool

/-- Operations that may run between two ClaimForPlace calls in claim C1:
everything except ReturnUnusedOffers and ClaimForLaunch (the expired
status reset is not an operation of this model). -/
def allowedBetweenClaims : PoolOp → Bool
  | PoolOp.returnUnused _ => false
  | PoolOp.claimLaunch _ => false
  | _ => true

/-- Consistency of one operation with a global hostname assignment for
offer ids: every offer added is offered from the host the assignment
names.  Mesos offer ids are globally unique, so every real input sequence
satisfies this for some assignment. -/
def opConsistent (hostOf : String → String) : PoolOp → Prop
  | PoolOp.add offers _ => ∀ o ∈ offers, o.hostname = hostOf o.oid
  | _ => True

/-- Well-formedness of the embedded maps: association-list keys are
unique, as Go map keys are. -/
def wfPool (P : PoolState) : Prop :=
  (P.hostOfferIndex.map Prod.fst).Nodup ∧ (P.timedOffers.map Prod.fst).Nodup

/-- The invariant of claim C8 relative to a hostname assignment: every
timed offer is recorded under its assigned hostname and sits in that
host's bag, and every bag only holds offers assigned to its host. -/
def bagInv (hostOf : String → String) (P : PoolState) : Prop :=
  (∀ h s, lookupA h P.hostOfferIndex = some s →
     ∀ oid o, lookupA oid s.offers = some o → hostOf oid = h) ∧
  (∀ oid t, lookupA oid P.timedOffers = some t →
     t.hostname = hostOf oid ∧
     ∃ s, lookupA (hostOf oid) P.hostOfferIndex = some s ∧
       (lookupA oid s.offers).isSome)

/-! ## Resource manager task tracker

Modelled from the spec: the tracker source is not under src (only its test
suite); section 4.5 specifies AddTask, the transition effects and
MarkItDone. -/

/-- Task states of the resmgr task state machine (spec section 3). -/
inductive TaskState
  | initialized
  | pending
  | ready
  | placing
  | placed
  | launching
  | launched
  | running
  | succeeded
  | failed
  | killed
  | lost
  | preempting
  | reserved
  deriving DecidableEq, Repr

/-- Modelled from the spec: the states from which MarkItDone subtracts the
task's resource from the pool allocation (section 4.5). -/
def subtractsAllocation : TaskState → Bool
  | TaskState.ready => true
  | TaskState.placing => true
  | TaskState.placed => true
  | TaskState.launching => true
  | TaskState.launched => true
  | TaskState.running => true
  | TaskState.reserved => true
  | _ => false

/-- Modelled from the spec: a tracked resmgr task: current state, resource
vector, owning resource pool. -/
structure RMTask where
  state : TaskState
  res : Resources
  poolId : String
  deriving DecidableEq, Repr

/-- Modelled from the spec: the task tracker's id index together with each
pool's allocation ledger. -/
structure Tracker where
  tasks : SMap RMTask
  alloc : SMap Resources
  deriving DecidableEq, Repr

/-- Modelled from the spec: respool.SubtractFromAllocation on one pool's
ledger entry (saturating scalar subtraction, spec section 3). -/
def subtractFromAllocation (alloc : SMap Resources) (poolId : String)
    (r : Resources) : SMap Resources :=
  match lookupA poolId alloc with
  | none => alloc
  | some a => insertA poolId (a.sub r) alloc

/-- Modelled from the spec: Tracker.MarkItDone: the task dies (is removed
from the tracker), and only from the states in subtractsAllocation is its
resource subtracted from its pool's allocation; from INITIALIZED or
PENDING the allocation is untouched (section 4.5). -/
def markItDone (tr : Tracker) (tid : String) : Tracker :=
  match lookupA tid tr.tasks with
  | none => tr
  | some t =>
    { tasks := eraseA tid tr.tasks,
      alloc :=
        if subtractsAllocation t.state then
          subtractFromAllocation tr.alloc t.poolId t.res
        else tr.alloc }

/-! ## Job manager failed-task status update

Modelled from the spec: the status-update source is not under src (only
its test src/jobmgr/task/event/update_test.go); section 4.5 specifies the
failure retry. -/

/-- Mesos failure reasons distinguished by the retry policy, restricted to
one retryable and one non-retryable representative. -/
inductive FailReason
  | containerLaunchFailed
  | taskInvalid
  deriving DecidableEq, Repr

/-- Wire name of a failure reason (mesos TaskStatus_Reason String()). -/
def reasonString : FailReason → String
  | FailReason.containerLaunchFailed => "REASON_CONTAINER_LAUNCH_FAILED"
  | FailReason.taskInvalid => "REASON_TASK_INVALID"

/-- Modelled from the spec: the set of retryable failure reasons. -/
def isRetryableReason : FailReason → Bool
  | FailReason.containerLaunchFailed => true
  | FailReason.taskInvalid => false

/-- Task runtime as rewritten by the status updater. -/
structure RuntimeInfo where
  state : TaskState
  mesosTaskId : String
  failuresCount : Nat
  reason : String
  message : String
  deriving DecidableEq, Repr

/-- The slice of TaskInfo the failed-update path consults: runtime, the
restart policy's max_failures and the owning resource pool. -/
structure TaskInfo where
  runtime : RuntimeInfo
  maxFailures : Nat
  respoolId : String
  deriving DecidableEq, Repr

/-- An EnqueueGangs request emitted by the rescheduler: the target pool. -/
structure EnqueueReq where
  respoolId : String
  deriving DecidableEq, Repr

/-- Modelled from the spec: processing of a FAILED status update (section
4.5): with a retryable reason and failures_count below max_failures the
runtime is rewritten to INITIALIZED with the failure counter bumped, the
failure reason recorded, and a regenerated mesos task id (the fresh id is
passed in), and the task is re-enqueued via EnqueueGangs into its own
pool; otherwise the runtime is written FAILED with the reason recorded and
nothing is enqueued. -/
def processFailedUpdate (info : TaskInfo) (reason : FailReason) (msg : String)
    (freshId : String) : RuntimeInfo × Option EnqueueReq :=
  if isRetryableReason reason ∧ info.runtime.failuresCount < info.maxFailures then
    ({ state := TaskState.initialized,
       mesosTaskId := freshId,
       failuresCount := info.runtime.failuresCount + 1,
       reason := reasonString reason,
       message := "Rescheduled due to task failure status: " ++ msg },
     some ⟨info.respoolId⟩)
  else
    ({ info.runtime with
       state := TaskState.failed,
       reason := reasonString reason },
     none)

/-! ## Job manager stateless service handler
(src/jobmgr/jobsvc/stateless/handler.go) -/

/-- Error kinds of the transport-neutral yarpc status codes. -/
inductive ErrKind
  | invalidArgument
  | notFound
  | failedPrecondition
  | alreadyExists
  | unavailable
  | internal
  deriving DecidableEq, Repr

/-- A yarpc error: its kind plus its message. -/
structure YError where
  kind : ErrKind
  msg : String
  deriving DecidableEq, Repr

/-- Translation of serviceHandler.CreateJob's leader gate (handler.go
lines 112-115): on an instance that is not the leader the call fails
immediately with an UNAVAILABLE error; on the leader it proceeds with the
remainder of the handler, abstracted here as the argument rest. -/
def createJob {Resp : Type} (isLeader : Bool) (rest : Except YError Resp) :
    Except YError Resp :=
  if !isLeader then
    Except.error ⟨ErrKind.unavailable, "JobSVC.CreateJob is not supported on non-leader"⟩
  else rest

/-- Translation of serviceHandler.RefreshJob's leader gate (handler.go
lines 850-853), the same shape as CreateJob. -/
def refreshJob {Resp : Type} (isLeader : Bool) (rest : Except YError Resp) :
    Except YError Resp :=
  if !isLeader then
    Except.error ⟨ErrKind.unavailable, "JobSVC.RefreshJob is not supported on non-leader"⟩
  else rest

/-! ## Lemmas about the embedded maps and scalars -/

@[simp] theorem lookupA_nil {V : Type} (k : String) :
    lookupA k ([] : SMap V) = none := rfl

@[simp] theorem lookupA_cons {V : Type} (k k' : String) (v : V) (t : SMap V) :
    lookupA k ((k', v) :: t) = if k' = k then some v else lookupA k t := rfl

theorem lookupA_insertA {V : Type} (k k' : String) (v : V) (m : SMap V) :
    lookupA k' (insertA k v m) = if k = k' then some v else lookupA k' m := by
  induction m with
  | nil =>
      simp [insertA, lookupA]
  | cons hd t ih =>
      obtain ⟨k₀, v₀⟩ := hd
      simp only [insertA]
      by_cases h0 : k₀ = k
      · subst h0
        simp only [if_pos rfl, lookupA]
        by_cases h : k₀ = k' <;> simp [h]
      · simp only [if_neg h0, lookupA]
        by_cases h1 : k₀ = k'
        · subst h1
          have hk : ¬ k = k₀ := fun h => h0 h.symm
          simp [hk]
        · simp [h1, ih]

@[simp] theorem lookupA_insertA_self {V : Type} (k : String) (v : V) (m : SMap V) :
    lookupA k (insertA k v m) = some v := by
  simp [lookupA_insertA]

theorem lookupA_insertA_ne {V : Type} {k k' : String} (v : V) (m : SMap V)
    (h : k ≠ k') : lookupA k' (insertA k v m) = lookupA k' m := by
  simp [lookupA_insertA, h]

theorem lookupA_eraseA {V : Type} (k k' : String) (m : SMap V) :
    lookupA k' (eraseA k m) = if k = k' then none else lookupA k' m := by
  induction m with
  | nil => by_cases h : k = k' <;> simp [eraseA, h]
  | cons hd t ih =>
      obtain ⟨k₀, v₀⟩ := hd
      simp only [eraseA]
      by_cases h0 : k₀ = k
      · subst h0
        rw [if_pos rfl, ih]
        by_cases h : k₀ = k' <;> simp [h, lookupA]
      · simp only [if_neg h0, lookupA, ih]
        by_cases h1 : k₀ = k'
        · subst h1
          have hk : ¬ k = k₀ := fun h => h0 h.symm
          simp [hk]
        · simp [h1]

@[simp] theorem lookupA_eraseA_self {V : Type} (k : String) (m : SMap V) :
    lookupA k (eraseA k m) = none := by
  simp [lookupA_eraseA]

theorem lookupA_eraseA_ne {V : Type} {k k' : String} (m : SMap V)
    (h : k ≠ k') : lookupA k' (eraseA k m) = lookupA k' m := by
  simp [lookupA_eraseA, h]

theorem eraseA_insertA {V : Type} (k : String) (v : V) (m : SMap V) :
    eraseA k (insertA k v m) = eraseA k m := by
  induction m with
  | nil => simp [insertA, eraseA]
  | cons hd t ih =>
      obtain ⟨k₀, v₀⟩ := hd
      simp only [insertA]
      by_cases h0 : k₀ = k
      · subst h0
        simp [eraseA]
      · simp only [if_neg h0, eraseA, ih]

theorem eraseA_not_member {V : Type} {k : String} {m : SMap V}
    (h : lookupA k m = none) : eraseA k m = m := by
  induction m with
  | nil => rfl
  | cons hd t ih =>
      obtain ⟨k₀, v₀⟩ := hd
      by_cases h0 : k₀ = k
      · subst h0
        simp [lookupA] at h
      · simp [lookupA, h0] at h
        simp [eraseA, h0, ih h]

theorem eraseA_insertA_not_member {V : Type} {k : String} (v : V) {m : SMap V}
    (h : lookupA k m = none) : eraseA k (insertA k v m) = m := by
  rw [eraseA_insertA, eraseA_not_member h]

namespace Resources

theorem add_sub_cancel_of_nonneg {a : Resources} (b : Resources)
    (h : a.nonneg) : (a.add b).sub b = a := by
  simp only [nonneg] at h
  obtain ⟨ac, am, ad, ag⟩ := a
  obtain ⟨bc, bm, bd, bg⟩ := b
  obtain ⟨h1, h2, h3, h4⟩ := h
  simp only [add, sub, Resources.mk.injEq]
  refine ⟨?_, ?_, ?_, ?_⟩ <;> rw [add_sub_cancel_right]
  · exact max_eq_left h1
  · exact max_eq_left h2
  · exact max_eq_left h3
  · exact max_eq_left h4

theorem sub_add_cancel_of_contains {a b : Resources}
    (h : a.contains b) : (a.sub b).add b = a := by
  simp only [contains] at h
  obtain ⟨ac, am, ad, ag⟩ := a
  obtain ⟨bc, bm, bd, bg⟩ := b
  obtain ⟨h1, h2, h3, h4⟩ := h
  simp only [add, sub, Resources.mk.injEq]
  refine ⟨?_, ?_, ?_, ?_⟩
  · rw [max_eq_left (sub_nonneg.mpr h1)]; ring
  · rw [max_eq_left (sub_nonneg.mpr h2)]; ring
  · rw [max_eq_left (sub_nonneg.mpr h3)]; ring
  · rw [max_eq_left (sub_nonneg.mpr h4)]; ring

theorem sub_exact_of_contains {a b : Resources} (h : a.contains b) :
    a.sub b = ⟨a.cpu - b.cpu, a.mem - b.mem, a.disk - b.disk, a.gpu - b.gpu⟩ := by
  simp only [contains] at h
  obtain ⟨h1, h2, h3, h4⟩ := h
  simp only [sub, Resources.mk.injEq]
  exact ⟨max_eq_left (sub_nonneg.mpr h1), max_eq_left (sub_nonneg.mpr h2),
    max_eq_left (sub_nonneg.mpr h3), max_eq_left (sub_nonneg.mpr h4)⟩

theorem add_zero (a : Resources) : a.add zero = a := by
  obtain ⟨ac, am, ad, ag⟩ := a
  simp [add, zero]

end Resources

theorem insertA_self_of_lookup {V : Type} {k : String} {v : V} {m : SMap V}
    (h : lookupA k m = some v) : insertA k v m = m := by
  induction m with
  | nil => simp [lookupA] at h
  | cons hd t ih =>
      obtain ⟨k₀, v₀⟩ := hd
      by_cases h0 : k₀ = k
      · subst h0
        have hv : v₀ = v := by simpa [lookupA] using h
        subst hv
        simp [insertA]
      · have ht : lookupA k t = some v := by simpa [lookupA, h0] using h
        simp [insertA, h0, ih ht]

theorem insertA_insertA {V : Type} (k : String) (v w : V) (m : SMap V) :
    insertA k v (insertA k w m) = insertA k v m := by
  induction m with
  | nil => simp [insertA]
  | cons hd t ih =>
      obtain ⟨k₀, v₀⟩ := hd
      simp only [insertA]
      by_cases h0 : k₀ = k
      · subst h0
        simp [insertA]
      · simp [insertA, h0, ih]

theorem lookupA_mem {V : Type} {k : String} {v : V} {m : SMap V}
    (h : lookupA k m = some v) : (k, v) ∈ m := by
  induction m with
  | nil => simp [lookupA] at h
  | cons hd t ih =>
      obtain ⟨k₀, v₀⟩ := hd
      by_cases h0 : k₀ = k
      · subst h0
        have hv : v₀ = v := by simpa [lookupA] using h
        subst hv
        exact List.mem_cons_self _ _
      · have ht : lookupA k t = some v := by simpa [lookupA, h0] using h
        exact List.mem_cons_of_mem _ (ih ht)

theorem lookupA_eq_none_iff {V : Type} {k : String} {m : SMap V} :
    lookupA k m = none ↔ k ∉ m.map Prod.fst := by
  induction m with
  | nil => simp [lookupA]
  | cons hd t ih =>
      obtain ⟨k₀, v₀⟩ := hd
      by_cases h0 : k₀ = k
      · subst h0
        simp [lookupA]
      · simp only [lookupA, if_neg h0, List.map_cons, List.mem_cons, ih]
        constructor
        · intro h hc
          rcases hc with hc | hc
          · exact h0 hc.symm
          · exact h hc
        · intro h hc
          exact h (Or.inr hc)

theorem mem_lookupA_of_nodup {V : Type} {m : SMap V}
    (hn : (m.map Prod.fst).Nodup) {k : String} {v : V} (h : (k, v) ∈ m) :
    lookupA k m = some v := by
  induction m with
  | nil => simp at h
  | cons hd t ih =>
      obtain ⟨k₀, v₀⟩ := hd
      simp only [List.map_cons, List.nodup_cons] at hn
      rcases List.mem_cons.mp h with h1 | h1
      · injection h1 with hk hv
        subst hk
        subst hv
        simp [lookupA]
      · by_cases h0 : k₀ = k
        · subst h0
          exact absurd (List.mem_map_of_mem Prod.fst h1) hn.1
        · simp only [lookupA, if_neg h0]
          exact ih hn.2 h1

theorem keys_insertA {V : Type} (k : String) (v : V) (m : SMap V) :
    (insertA k v m).map Prod.fst =
      if k ∈ m.map Prod.fst then m.map Prod.fst else m.map Prod.fst ++ [k] := by
  induction m with
  | nil => simp [insertA]
  | cons hd t ih =>
      obtain ⟨k₀, v₀⟩ := hd
      simp only [insertA]
      by_cases h0 : k₀ = k
      · subst h0
        simp
      · simp only [if_neg h0, List.map_cons, ih, List.mem_cons]
        have hk : ¬ k = k₀ := fun h => h0 h.symm
        by_cases h1 : k ∈ t.map Prod.fst <;> simp [h1, hk]

theorem nodup_keys_insertA {V : Type} {m : SMap V} (k : String) (v : V)
    (hn : (m.map Prod.fst).Nodup) : ((insertA k v m).map Prod.fst).Nodup := by
  rw [keys_insertA]
  by_cases h : k ∈ m.map Prod.fst
  · simpa [h] using hn
  · simp only [if_neg h]
    rw [List.nodup_append]
    exact ⟨hn, List.nodup_singleton k,
      fun a ha hb => h ((List.mem_singleton.mp hb) ▸ ha)⟩

theorem keys_eraseA_sublist {V : Type} (k : String) (m : SMap V) :
    List.Sublist ((eraseA k m).map Prod.fst) (m.map Prod.fst) := by
  induction m with
  | nil => simp [eraseA]
  | cons hd t ih =>
      obtain ⟨k₀, v₀⟩ := hd
      simp only [eraseA]
      by_cases h0 : k₀ = k
      · simp only [if_pos h0, List.map_cons]
        exact ih.trans (List.sublist_cons_self _ _)
      · simp only [if_neg h0, List.map_cons]
        exact ih.cons₂ _

theorem nodup_keys_eraseA {V : Type} {m : SMap V} (k : String)
    (hn : (m.map Prod.fst).Nodup) : ((eraseA k m).map Prod.fst).Nodup :=
  (keys_eraseA_sublist k m).nodup hn

theorem lookupA_foldl_eraseA {V W : Type} (l : List (String × W)) (m : SMap V)
    (k : String) :
    lookupA k (l.foldl (fun t e => eraseA e.1 t) m) =
      if k ∈ l.map Prod.fst then none else lookupA k m := by
  induction l generalizing m with
  | nil => simp
  | cons e t ih =>
      simp only [List.foldl_cons, ih, List.map_cons, List.mem_cons, lookupA_eraseA]
      by_cases h2 : e.1 = k
      · by_cases h1 : k ∈ t.map Prod.fst <;> simp [h1, h2]
      · have hk : ¬ k = e.1 := fun h => h2 h.symm
        by_cases h1 : k ∈ t.map Prod.fst <;> simp [h1, h2, hk]

theorem lookupA_forall2 {V : Type} {R : V → V → Prop} :
    ∀ {l₁ l₂ : SMap V},
      List.Forall₂ (fun a b => b.1 = a.1 ∧ R a.2 b.2) l₁ l₂ →
      ∀ k, (lookupA k l₁ = none ∧ lookupA k l₂ = none) ∨
        (∃ v₁ v₂, lookupA k l₁ = some v₁ ∧ lookupA k l₂ = some v₂ ∧ R v₁ v₂) := by
  intro l₁
  induction l₁ with
  | nil =>
      intro l₂ h k
      cases h
      exact Or.inl ⟨rfl, rfl⟩
  | cons a t ih =>
      intro l₂ h k
      rcases List.forall₂_cons_left_iff.mp h with ⟨b, lb, hab, ht, rfl⟩
      obtain ⟨ka, va⟩ := a
      obtain ⟨kb, vb⟩ := b
      obtain ⟨hk, hr⟩ := hab
      simp only at hk hr
      subst ka
      by_cases h0 : kb = k
      · subst h0
        exact Or.inr ⟨va, vb, by simp [lookupA], by simp [lookupA], hr⟩
      · rcases ih ht k with ⟨hn1, hn2⟩ | ⟨v₁, v₂, hs1, hs2, hr12⟩
        · exact Or.inl ⟨by simp [lookupA, h0, hn1], by simp [lookupA, h0, hn2]⟩
        · exact Or.inr ⟨v₁, v₂, by simp [lookupA, h0, hs1],
            by simp [lookupA, h0, hs2], hr12⟩

theorem removeExpiredStep_idx (Q : PoolState) (e : String × TimedOffer) :
    (removeExpiredStep Q e).hostOfferIndex =
      match lookupA e.2.hostname Q.hostOfferIndex with
      | none => Q.hostOfferIndex
      | some s0 =>
          insertA e.2.hostname ⟨s0.status, eraseA e.1 s0.offers⟩ Q.hostOfferIndex := by
  cases hl : lookupA e.2.hostname Q.hostOfferIndex with
  | none => simp [removeExpiredStep, hl]
  | some s0 =>
      cases ho : lookupA e.1 s0.offers with
      | none => simp [removeExpiredStep, HostSummary.removeMesosOffer, hl, ho]
      | some off =>
          cases hst : s0.status <;>
            simp [removeExpiredStep, HostSummary.removeMesosOffer, hl, ho, hst]

theorem removeExpiredStep_timedOffers (Q : PoolState) (e : String × TimedOffer) :
    (removeExpiredStep Q e).timedOffers = Q.timedOffers := by
  cases hl : lookupA e.2.hostname Q.hostOfferIndex with
  | none => simp [removeExpiredStep, hl]
  | some s0 =>
      cases ho : lookupA e.1 s0.offers with
      | none => simp [removeExpiredStep, HostSummary.removeMesosOffer, hl, ho]
      | some off =>
          cases hst : s0.status <;>
            simp [removeExpiredStep, HostSummary.removeMesosOffer, hl, ho, hst]

theorem foldl_removeExpiredStep_timedOffers (l : List (String × TimedOffer))
    (Q : PoolState) :
    (l.foldl removeExpiredStep Q).timedOffers = Q.timedOffers := by
  induction l generalizing Q with
  | nil => rfl
  | cons e t ih => rw [List.foldl_cons, ih, removeExpiredStep_timedOffers]

theorem removeExpiredStep_bag_none_preserved (Q : PoolState)
    (e : String × TimedOffer) (h oid : String)
    (hp : ∀ s, lookupA h Q.hostOfferIndex = some s → lookupA oid s.offers = none) :
    ∀ s, lookupA h (removeExpiredStep Q e).hostOfferIndex = some s →
      lookupA oid s.offers = none := by
  intro s hs
  rw [removeExpiredStep_idx] at hs
  cases hl : lookupA e.2.hostname Q.hostOfferIndex with
  | none =>
      simp only [hl] at hs
      exact hp s hs
  | some s0 =>
      simp only [hl] at hs
      by_cases hh : e.2.hostname = h
      · subst hh
        rw [lookupA_insertA_self] at hs
        injection hs with hs
        subst hs
        rw [lookupA_eraseA]
        by_cases he1 : e.1 = oid
        · simp [he1]
        · simp [he1, hp s0 hl]
      · rw [lookupA_insertA_ne _ _ hh] at hs
        exact hp s hs

theorem removeExpiredStep_bag_none_established (Q : PoolState)
    (e : String × TimedOffer) :
    ∀ s, lookupA e.2.hostname (removeExpiredStep Q e).hostOfferIndex = some s →
      lookupA e.1 s.offers = none := by
  intro s hs
  rw [removeExpiredStep_idx] at hs
  cases hl : lookupA e.2.hostname Q.hostOfferIndex with
  | none =>
      simp [hl] at hs
  | some s0 =>
      simp only [hl, lookupA_insertA_self] at hs
      injection hs with hs
      subst hs
      simp [lookupA_eraseA_self]

theorem foldl_removeExpiredStep_bag_none_preserved (l : List (String × TimedOffer))
    (Q : PoolState) (h oid : String)
    (hp : ∀ s, lookupA h Q.hostOfferIndex = some s → lookupA oid s.offers = none) :
    ∀ s, lookupA h (l.foldl removeExpiredStep Q).hostOfferIndex = some s →
      lookupA oid s.offers = none := by
  induction l generalizing Q with
  | nil => exact hp
  | cons e t ih =>
      rw [List.foldl_cons]
      exact ih _ (removeExpiredStep_bag_none_preserved Q e h oid hp)

theorem foldl_removeExpiredStep_bag_none (l : List (String × TimedOffer))
    (Q : PoolState) :
    ∀ e ∈ l, ∀ s,
      lookupA e.2.hostname (l.foldl removeExpiredStep Q).hostOfferIndex = some s →
      lookupA e.1 s.offers = none := by
  induction l generalizing Q with
  | nil =>
      intro e he
      cases he
  | cons e0 t ih =>
      intro e he s hs
      rw [List.foldl_cons] at hs
      rcases List.mem_cons.mp he with he | he
      · subst he
        exact foldl_removeExpiredStep_bag_none_preserved t _ _ _
          (removeExpiredStep_bag_none_established Q e) s hs
      · exact ih _ e he s hs

theorem lookupA_forall2P {V : Type} {R : (String × V) → (String × V) → Prop} :
    ∀ {l₁ l₂ : SMap V},
      List.Forall₂ (fun a b => b.1 = a.1 ∧ R a b) l₁ l₂ →
      ∀ k, (lookupA k l₁ = none ∧ lookupA k l₂ = none) ∨
        (∃ v₁ v₂, lookupA k l₁ = some v₁ ∧ lookupA k l₂ = some v₂ ∧
          R (k, v₁) (k, v₂)) := by
  intro l₁
  induction l₁ with
  | nil =>
      intro l₂ h k
      cases h
      exact Or.inl ⟨rfl, rfl⟩
  | cons a t ih =>
      intro l₂ h k
      rcases List.forall₂_cons_left_iff.mp h with ⟨b, lb, hab, ht, rfl⟩
      obtain ⟨ka, va⟩ := a
      obtain ⟨kb, vb⟩ := b
      obtain ⟨hk, hr⟩ := hab
      simp only at hk
      subst ka
      by_cases h0 : kb = k
      · subst h0
        exact Or.inr ⟨va, vb, by simp [lookupA], by simp [lookupA], hr⟩
      · rcases ih ht k with ⟨hn1, hn2⟩ | ⟨v₁, v₂, hs1, hs2, hr12⟩
        · exact Or.inl ⟨by simp [lookupA, h0, hn1], by simp [lookupA, h0, hn2]⟩
        · exact Or.inr ⟨v₁, v₂, by simp [lookupA, h0, hs1],
            by simp [lookupA, h0, hs2], hr12⟩

theorem forall2_keys {V : Type} {R : (String × V) → (String × V) → Prop}
    {l₁ l₂ : List (String × V)}
    (h : List.Forall₂ (fun a b => b.1 = a.1 ∧ R a b) l₁ l₂) :
    l₂.map Prod.fst = l₁.map Prod.fst := by
  induction h with
  | nil => rfl
  | cons hab htail ih => simp [ih, hab.1]

theorem claimStep_foldl_length (f : HostFilter) (l : SMap HostSummary) :
    ∀ acc : List (String × List MOffer) × SMap HostSummary,
      acc.1.length ≤ f.maxHosts →
      (l.foldl (claimStep f) acc).1.length ≤ f.maxHosts := by
  induction l with
  | nil => intro acc h; simpa using h
  | cons e t ih =>
      intro acc h
      rw [List.foldl_cons]
      apply ih
      unfold claimStep
      by_cases hg : f.maxHosts ≤ acc.1.length
      · simpa [hg] using h
      · by_cases hm : matchHost f e.2
        · simp only [if_neg hg, if_pos hm, List.length_append,
            List.length_singleton]
          omega
        · simpa [hg, hm] using h

theorem claimStep_foldl_spec (f : HostFilter) (l : SMap HostSummary) :
    ∀ macc iacc,
      ∃ madd iadd,
        (l.foldl (claimStep f) (macc, iacc)).1 = macc ++ madd ∧
        (l.foldl (claimStep f) (macc, iacc)).2 = iacc ++ iadd ∧
        List.Forall₂ (fun a b => b.1 = a.1 ∧
          (b.2 = a.2 ∨
            (matchHost f a.2 = true ∧
             b.2 = { a.2 with status := CacheStatus.placingOffer } ∧
             (a.1, a.2.offers.map Prod.snd) ∈ madd))) l iadd ∧
        (∀ e ∈ madd, ∃ s, (e.1, s) ∈ l ∧ matchHost f s = true ∧
           e.2 = s.offers.map Prod.snd ∧
           (e.1, { s with status := CacheStatus.placingOffer }) ∈ iadd) := by
  induction l with
  | nil =>
      intro macc iacc
      exact ⟨[], [], by simp, by simp, List.Forall₂.nil, by simp⟩
  | cons e t ih =>
      intro macc iacc
      obtain ⟨h, s⟩ := e
      rw [List.foldl_cons]
      by_cases hg : f.maxHosts ≤ macc.length
      · have hstep : claimStep f (macc, iacc) (h, s) = (macc, iacc ++ [(h, s)]) := by
          simp [claimStep, hg]
        rw [hstep]
        obtain ⟨madd, iadd, h1, h2, h3, h4⟩ := ih macc (iacc ++ [(h, s)])
        refine ⟨madd, (h, s) :: iadd, h1, ?_, ?_, ?_⟩
        · rw [h2, List.append_assoc]
          simp
        · exact List.Forall₂.cons ⟨rfl, Or.inl rfl⟩ h3
        · intro e' he'
          obtain ⟨s', hs1, hs2, hs3, hs4⟩ := h4 e' he'
          exact ⟨s', List.mem_cons_of_mem _ hs1, hs2, hs3,
            List.mem_cons_of_mem _ hs4⟩
      · by_cases hm : matchHost f s
        · have hstep : claimStep f (macc, iacc) (h, s)
              = (macc ++ [(h, s.offers.map Prod.snd)],
                 iacc ++ [(h, { s with status := CacheStatus.placingOffer })]) := by
            simp [claimStep, hg, hm]
          rw [hstep]
          obtain ⟨madd, iadd, h1, h2, h3, h4⟩ :=
            ih (macc ++ [(h, s.offers.map Prod.snd)])
               (iacc ++ [(h, { s with status := CacheStatus.placingOffer })])
          refine ⟨(h, s.offers.map Prod.snd) :: madd,
            (h, { s with status := CacheStatus.placingOffer }) :: iadd,
            ?_, ?_, ?_, ?_⟩
          · rw [h1, List.append_assoc]
            simp
          · rw [h2, List.append_assoc]
            simp
          · refine List.Forall₂.cons
              ⟨rfl, Or.inr ⟨hm, rfl, List.mem_cons_self _ _⟩⟩ ?_
            refine h3.imp fun a b hab => ⟨hab.1, ?_⟩
            refine hab.2.imp id fun hr => ⟨hr.1, hr.2.1, ?_⟩
            exact List.mem_cons_of_mem _ hr.2.2
          · intro e' he'
            rcases List.mem_cons.mp he' with he' | he'
            · subst he'
              exact ⟨s, List.mem_cons_self _ _, hm, rfl, List.mem_cons_self _ _⟩
            · obtain ⟨s', hs1, hs2, hs3, hs4⟩ := h4 e' he'
              exact ⟨s', List.mem_cons_of_mem _ hs1, hs2, hs3,
                List.mem_cons_of_mem _ hs4⟩
        · have hstep : claimStep f (macc, iacc) (h, s) = (macc, iacc ++ [(h, s)]) := by
            simp [claimStep, hg, hm]
          rw [hstep]
          obtain ⟨madd, iadd, h1, h2, h3, h4⟩ := ih macc (iacc ++ [(h, s)])
          refine ⟨madd, (h, s) :: iadd, h1, ?_, ?_, ?_⟩
          · rw [h2, List.append_assoc]
            simp
          · exact List.Forall₂.cons ⟨rfl, Or.inl rfl⟩ h3
          · intro e' he'
            obtain ⟨s', hs1, hs2, hs3, hs4⟩ := h4 e' he'
            exact ⟨s', List.mem_cons_of_mem _ hs1, hs2, hs3,
              List.mem_cons_of_mem _ hs4⟩

theorem claimForPlace_inv (P : PoolState) (f : HostFilter)
    (m : List (String × List MOffer)) (P' : PoolState)
    (hok : claimForPlace P (some f) = Except.ok (m, P')) :
    m = (P.hostOfferIndex.foldl (claimStep f) ([], [])).1 ∧
    P'.hostOfferIndex = (P.hostOfferIndex.foldl (claimStep f) ([], [])).2 ∧
    P'.timedOffers = P.timedOffers ∧
    P'.placingResources = P.placingResources.add (mapDelta m) ∧
    (P.readyResources.contains (mapDelta m) →
       P'.readyResources.add (mapDelta m) = P.readyResources) := by
  simp only [claimForPlace] at hok
  by_cases hlen : 0 < (P.hostOfferIndex.foldl (claimStep f) ([], [])).1.length
  · rw [if_pos hlen] at hok
    have h' := Except.ok.inj hok
    have hm : (P.hostOfferIndex.foldl (claimStep f) ([], [])).1 = m :=
      congrArg Prod.fst h'
    have hP : _ = P' := congrArg Prod.snd h'
    subst hm
    refine ⟨rfl, ?_, ?_, ?_, ?_⟩
    · rw [← hP]
    · rw [← hP]
    · rw [← hP]
      simp [incQuantity]
    · intro hc
      rw [← hP]
      exact Resources.sub_add_cancel_of_contains hc
  · rw [if_neg hlen] at hok
    have h' := Except.ok.inj hok
    have hm : (P.hostOfferIndex.foldl (claimStep f) ([], [])).1 = m :=
      congrArg Prod.fst h'
    have hP : _ = P' := congrArg Prod.snd h'
    have hempty : m = [] := by
      rw [← hm]
      have := Nat.eq_zero_of_not_pos hlen
      rw [hm] at this
      exact List.length_eq_zero.mp (hm ▸ this)
    subst hm
    refine ⟨rfl, ?_, ?_, ?_, ?_⟩
    · rw [← hP]
    · rw [← hP]
    · rw [← hP, hempty]
      simp [mapDelta, Resources.add_zero]
    · intro hc
      rw [← hP, hempty]
      simp [mapDelta, Resources.add_zero]

theorem addOneOffer_idx (P : PoolState) (o : MOffer) :
    (addOneOffer P o).hostOfferIndex =
      insertA o.hostname
        { status := ((lookupA o.hostname P.hostOfferIndex).getD HostSummary.new).status,
          offers := insertA o.oid o
            ((lookupA o.hostname P.hostOfferIndex).getD HostSummary.new).offers }
        P.hostOfferIndex := by
  cases hst : ((lookupA o.hostname P.hostOfferIndex).getD HostSummary.new).status <;>
    simp [addOneOffer, HostSummary.addMesosOffer, hst]

theorem addOneOffer_timedOffers (P : PoolState) (o : MOffer) :
    (addOneOffer P o).timedOffers = P.timedOffers := by
  cases hst : ((lookupA o.hostname P.hostOfferIndex).getD HostSummary.new).status <;>
    simp [addOneOffer, HostSummary.addMesosOffer, hst]

theorem foldl_addOneOffer_idx_nodup (offers : List MOffer) (P : PoolState)
    (h : (P.hostOfferIndex.map Prod.fst).Nodup) :
    (((offers.foldl addOneOffer P).hostOfferIndex).map Prod.fst).Nodup := by
  induction offers generalizing P with
  | nil => exact h
  | cons o t ih =>
      rw [List.foldl_cons]
      apply ih
      rw [addOneOffer_idx]
      exact nodup_keys_insertA _ _ h

theorem foldl_addOneOffer_timed (offers : List MOffer) (P : PoolState) :
    (offers.foldl addOneOffer P).timedOffers = P.timedOffers := by
  induction offers generalizing P with
  | nil => rfl
  | cons o t ih => rw [List.foldl_cons, ih, addOneOffer_timedOffers]

theorem foldl_insertA_nodup {V A : Type} (fkey : A → String) (fval : A → V)
    (l : List A) (m : SMap V) (h : (m.map Prod.fst).Nodup) :
    ((l.foldl (fun t a => insertA (fkey a) (fval a) t) m).map Prod.fst).Nodup := by
  induction l generalizing m with
  | nil => exact h
  | cons a t ih =>
      rw [List.foldl_cons]
      exact ih _ (nodup_keys_insertA _ _ h)

theorem nodup_keys_foldl_eraseA {V W : Type} (l : List (String × W)) (m : SMap V)
    (h : (m.map Prod.fst).Nodup) :
    ((l.foldl (fun t e => eraseA e.1 t) m).map Prod.fst).Nodup := by
  induction l generalizing m with
  | nil => exact h
  | cons e t ih =>
      rw [List.foldl_cons]
      exact ih _ (nodup_keys_eraseA _ h)

theorem foldl_removeExpiredStep_idx_nodup (l : List (String × TimedOffer))
    (Q : PoolState) (h : (Q.hostOfferIndex.map Prod.fst).Nodup) :
    (((l.foldl removeExpiredStep Q).hostOfferIndex).map Prod.fst).Nodup := by
  induction l generalizing Q with
  | nil => exact h
  | cons e t ih =>
      rw [List.foldl_cons]
      apply ih
      rw [removeExpiredStep_idx]
      cases hl : lookupA e.2.hostname Q.hostOfferIndex with
      | none =>
          simp only [hl]
          exact h
      | some s0 =>
          simp only [hl]
          exact nodup_keys_insertA _ _ h

theorem rescindOffer_idx_shape (P : PoolState) (oid : String) :
    (rescindOffer P oid).2.hostOfferIndex = P.hostOfferIndex ∨
    ∃ h s', (rescindOffer P oid).2.hostOfferIndex = insertA h s' P.hostOfferIndex := by
  cases h1 : lookupA oid P.timedOffers with
  | none =>
      left
      simp [rescindOffer, h1]
  | some t =>
      cases h2 : lookupA t.hostname P.hostOfferIndex with
      | none =>
          left
          simp [rescindOffer, h1, h2]
      | some s =>
          cases h3 : lookupA oid s.offers with
          | none =>
              right
              exact ⟨t.hostname, ⟨s.status, eraseA oid s.offers⟩,
                by simp [rescindOffer, h1, h2, h3, HostSummary.removeMesosOffer]⟩
          | some off =>
              right
              refine ⟨t.hostname, ⟨s.status, eraseA oid s.offers⟩, ?_⟩
              cases hst : s.status <;>
                simp [rescindOffer, h1, h2, h3, hst, HostSummary.removeMesosOffer]

theorem rescindOffer_timed_shape (P : PoolState) (oid : String) :
    (rescindOffer P oid).2.timedOffers = P.timedOffers ∨
    (rescindOffer P oid).2.timedOffers = eraseA oid P.timedOffers := by
  cases h1 : lookupA oid P.timedOffers with
  | none =>
      left
      simp [rescindOffer, h1]
  | some t =>
      cases h2 : lookupA t.hostname P.hostOfferIndex with
      | none =>
          right
          simp [rescindOffer, h1, h2]
      | some s =>
          cases h3 : lookupA oid s.offers with
          | none =>
              right
              simp [rescindOffer, h1, h2, h3, HostSummary.removeMesosOffer]
          | some off =>
              right
              cases hst : s.status <;>
                simp [rescindOffer, h1, h2, h3, hst, HostSummary.removeMesosOffer]

theorem returnUnusedOffers_shape (P : PoolState) (h : String) :
    ∀ P', returnUnusedOffers P h = Except.ok P' →
      P'.timedOffers = P.timedOffers ∧
      (P'.hostOfferIndex = P.hostOfferIndex ∨
       ∃ k s', P'.hostOfferIndex = insertA k s' P.hostOfferIndex) := by
  intro P' hok
  cases hl : lookupA h P.hostOfferIndex with
  | none =>
      simp only [returnUnusedOffers, hl] at hok
      injection hok with hok
      subst hok
      exact ⟨rfl, Or.inl rfl⟩
  | some s =>
      simp only [returnUnusedOffers, hl, HostSummary.casStatus] at hok
      by_cases hst : s.status = CacheStatus.placingOffer
      · rw [if_pos hst] at hok
        simp only at hok
        injection hok with hok
        subst hok
        exact ⟨rfl, Or.inr ⟨h, _, rfl⟩⟩
      · rw [if_neg hst] at hok
        cases hok

theorem claimForLaunchPool_shape (P : PoolState) (h : String) :
    ∀ r, claimForLaunchPool P h = Except.ok r →
      (∃ k s', r.2.hostOfferIndex = insertA k s' P.hostOfferIndex) ∧
      r.2.timedOffers = r.1.foldl (fun t e => eraseA e.1 t) P.timedOffers := by
  intro r hok
  cases hl : lookupA h P.hostOfferIndex with
  | none =>
      simp only [claimForLaunchPool, hl] at hok
      cases hok
  | some s =>
      simp only [claimForLaunchPool, hl, HostSummary.claimForLaunch] at hok
      by_cases hst : s.status = CacheStatus.placingOffer
      · rw [if_pos hst] at hok
        simp only at hok
        injection hok with hok
        subst hok
        exact ⟨⟨h, _, rfl⟩, rfl⟩
      · rw [if_neg hst] at hok
        cases hok

theorem wf_applyOp (P : PoolState) (op : PoolOp) (hwf : wfPool P) :
    wfPool (applyOp P op) := by
  obtain ⟨hidx, htimed⟩ := hwf
  cases op with
  | add offers exp =>
      constructor
      · simp only [applyOp, addOffers]
        exact foldl_addOneOffer_idx_nodup offers P hidx
      · simp only [applyOp, addOffers]
        rw [foldl_addOneOffer_timed]
        exact foldl_insertA_nodup (fun o => o.oid)
          (fun o => (⟨o.hostname, exp⟩ : TimedOffer)) offers _ htimed
  | rescind oid =>
      constructor
      · rcases rescindOffer_idx_shape P oid with hs | ⟨k, s', hs⟩
        · simpa [applyOp, hs] using hidx
        · rw [applyOp, hs]
          exact nodup_keys_insertA _ _ hidx
      · rcases rescindOffer_timed_shape P oid with hs | hs
        · simpa [applyOp, hs] using htimed
        · rw [applyOp, hs]
          exact nodup_keys_eraseA _ htimed
  | removeExpired now =>
      constructor
      · simp only [applyOp, removeExpiredOffers]
        exact foldl_removeExpiredStep_idx_nodup _ _ hidx
      · simp only [applyOp, removeExpiredOffers]
        rw [foldl_removeExpiredStep_timedOffers]
        exact (List.filter_sublist _).map Prod.fst |>.nodup htimed
  | claimPlace f? =>
      cases f? with
      | none => exact ⟨hidx, htimed⟩
      | some f =>
          cases hres : claimForPlace P (some f) with
          | error e =>
              simp only [applyOp, hres]
              exact ⟨hidx, htimed⟩
          | ok r =>
              simp only [applyOp, hres]
              obtain ⟨hm, hpidx, hptimed, _, _⟩ :=
                claimForPlace_inv P f r.1 r.2 (by rw [hres])
              constructor
              · rw [hpidx]
                obtain ⟨madd, iadd, _, h2, h3, _⟩ :=
                  claimStep_foldl_spec f P.hostOfferIndex [] []
                rw [h2, List.nil_append, forall2_keys h3]
                exact hidx
              · rw [hptimed]
                exact htimed
  | claimLaunch h =>
      cases hres : claimForLaunchPool P h with
      | error e =>
          simp only [applyOp, hres]
          exact ⟨hidx, htimed⟩
      | ok r =>
          simp only [applyOp, hres]
          obtain ⟨⟨k, s', hi⟩, ht⟩ := claimForLaunchPool_shape P h r hres
          constructor
          · rw [hi]
            exact nodup_keys_insertA _ _ hidx
          · rw [ht]
            exact nodup_keys_foldl_eraseA _ _ htimed
  | returnUnused h =>
      cases hres : returnUnusedOffers P h with
      | error e =>
          simp only [applyOp, hres]
          exact ⟨hidx, htimed⟩
      | ok P' =>
          simp only [applyOp, hres]
          obtain ⟨ht, hi⟩ := returnUnusedOffers_shape P h P' hres
          constructor
          · rcases hi with hi | ⟨k, s', hi⟩
            · rw [hi]
              exact hidx
            · rw [hi]
              exact nodup_keys_insertA _ _ hidx
          · rw [ht]
            exact htimed

theorem rescindOffer_idx (P : PoolState) (oid : String) :
    (rescindOffer P oid).2.hostOfferIndex =
      match lookupA oid P.timedOffers with
      | none => P.hostOfferIndex
      | some t =>
          match lookupA t.hostname P.hostOfferIndex with
          | none => P.hostOfferIndex
          | some s => insertA t.hostname ⟨s.status, eraseA oid s.offers⟩
              P.hostOfferIndex := by
  cases h1 : lookupA oid P.timedOffers with
  | none => simp [rescindOffer, h1]
  | some t =>
      cases h2 : lookupA t.hostname P.hostOfferIndex with
      | none => simp [rescindOffer, h1, h2]
      | some s =>
          cases h3 : lookupA oid s.offers with
          | none => simp [rescindOffer, h1, h2, h3, HostSummary.removeMesosOffer]
          | some off =>
              cases hst : s.status <;>
                simp [rescindOffer, h1, h2, h3, hst, HostSummary.removeMesosOffer]

theorem rescindOffer_timed (P : PoolState) (oid : String) :
    (rescindOffer P oid).2.timedOffers =
      match lookupA oid P.timedOffers with
      | none => P.timedOffers
      | some _ => eraseA oid P.timedOffers := by
  cases h1 : lookupA oid P.timedOffers with
  | none => simp [rescindOffer, h1]
  | some t =>
      cases h2 : lookupA t.hostname P.hostOfferIndex with
      | none => simp [rescindOffer, h1, h2]
      | some s =>
          cases h3 : lookupA oid s.offers with
          | none => simp [rescindOffer, h1, h2, h3, HostSummary.removeMesosOffer]
          | some off =>
              cases hst : s.status <;>
                simp [rescindOffer, h1, h2, h3, hst, HostSummary.removeMesosOffer]

theorem addOneOffer_status_preserved (P : PoolState) (o : MOffer) (h : String)
    (s : HostSummary) (hl : lookupA h P.hostOfferIndex = some s) :
    ∃ s', lookupA h (addOneOffer P o).hostOfferIndex = some s' ∧
      s'.status = s.status := by
  rw [addOneOffer_idx]
  by_cases hh : o.hostname = h
  · subst hh
    refine ⟨_, lookupA_insertA_self _ _ _, ?_⟩
    simp [hl]
  · exact ⟨s, by rw [lookupA_insertA_ne _ _ hh]; exact hl, rfl⟩

theorem foldl_addOneOffer_status_preserved (offers : List MOffer) :
    ∀ (P : PoolState) (h : String) (s : HostSummary),
      lookupA h P.hostOfferIndex = some s →
      ∃ s', lookupA h ((offers.foldl addOneOffer P).hostOfferIndex) = some s' ∧
        s'.status = s.status := by
  induction offers with
  | nil => intro P h s hl; exact ⟨s, hl, rfl⟩
  | cons o t ih =>
      intro P h s hl
      rw [List.foldl_cons]
      obtain ⟨s', hs', hstat⟩ := addOneOffer_status_preserved P o h s hl
      obtain ⟨s'', hs'', hstat'⟩ := ih _ h s' hs'
      exact ⟨s'', hs'', hstat'.trans hstat⟩

theorem rescindOffer_status_preserved (P : PoolState) (oid h : String)
    (s : HostSummary) (hl : lookupA h P.hostOfferIndex = some s) :
    ∃ s', lookupA h (rescindOffer P oid).2.hostOfferIndex = some s' ∧
      s'.status = s.status := by
  rw [rescindOffer_idx]
  cases h1 : lookupA oid P.timedOffers with
  | none =>
      simp only [h1]
      exact ⟨s, hl, rfl⟩
  | some t =>
      simp only [h1]
      cases h2 : lookupA t.hostname P.hostOfferIndex with
      | none =>
          simp only [h2]
          exact ⟨s, hl, rfl⟩
      | some s₀ =>
          simp only [h2]
          by_cases hh : t.hostname = h
          · subst hh
            have hss : s₀ = s := Option.some.inj (h2.symm.trans hl)
            subst hss
            exact ⟨_, lookupA_insertA_self _ _ _, rfl⟩
          · rw [lookupA_insertA_ne _ _ hh]
            exact ⟨s, hl, rfl⟩

theorem removeExpiredStep_status_preserved (Q : PoolState) (e : String × TimedOffer)
    (h : String) (s : HostSummary) (hl : lookupA h Q.hostOfferIndex = some s) :
    ∃ s', lookupA h (removeExpiredStep Q e).hostOfferIndex = some s' ∧
      s'.status = s.status := by
  rw [removeExpiredStep_idx]
  cases h2 : lookupA e.2.hostname Q.hostOfferIndex with
  | none =>
      simp only [h2]
      exact ⟨s, hl, rfl⟩
  | some s₀ =>
      simp only [h2]
      by_cases hh : e.2.hostname = h
      · subst hh
        have hss : s₀ = s := Option.some.inj (h2.symm.trans hl)
        subst hss
        exact ⟨_, lookupA_insertA_self _ _ _, rfl⟩
      · rw [lookupA_insertA_ne _ _ hh]
        exact ⟨s, hl, rfl⟩

theorem foldl_removeExpiredStep_status_preserved (l : List (String × TimedOffer)) :
    ∀ (Q : PoolState) (h : String) (s : HostSummary),
      lookupA h Q.hostOfferIndex = some s →
      ∃ s', lookupA h ((l.foldl removeExpiredStep Q).hostOfferIndex) = some s' ∧
        s'.status = s.status := by
  induction l with
  | nil => intro Q h s hl; exact ⟨s, hl, rfl⟩
  | cons e t ih =>
      intro Q h s hl
      rw [List.foldl_cons]
      obtain ⟨s', hs', hstat⟩ := removeExpiredStep_status_preserved Q e h s hl
      obtain ⟨s'', hs'', hstat'⟩ := ih _ h s' hs'
      exact ⟨s'', hs'', hstat'.trans hstat⟩

theorem applyOp_placing_preserved (P : PoolState) (op : PoolOp)
    (hallow : allowedBetweenClaims op = true) (h : String) (s : HostSummary)
    (hl : lookupA h P.hostOfferIndex = some s)
    (hst : s.status = CacheStatus.placingOffer) :
    ∃ s', lookupA h (applyOp P op).hostOfferIndex = some s' ∧
      s'.status = CacheStatus.placingOffer := by
  cases op with
  | add offers exp =>
      simp only [applyOp, addOffers]
      obtain ⟨s', hs', hstat⟩ := foldl_addOneOffer_status_preserved offers P h s hl
      exact ⟨s', hs', hstat.trans hst⟩
  | rescind oid =>
      simp only [applyOp]
      obtain ⟨s', hs', hstat⟩ := rescindOffer_status_preserved P oid h s hl
      exact ⟨s', hs', hstat.trans hst⟩
  | removeExpired now =>
      simp only [applyOp, removeExpiredOffers]
      obtain ⟨s', hs', hstat⟩ :=
        foldl_removeExpiredStep_status_preserved
          (P.timedOffers.filter (fun e => decide (e.2.expiration < now)))
          { P with timedOffers :=
              P.timedOffers.filter (fun e => !decide (e.2.expiration < now)) }
          h s (by simpa using hl)
      exact ⟨s', hs', hstat.trans hst⟩
  | claimPlace f? =>
      cases f? with
      | none =>
          simp only [applyOp, claimForPlace]
          exact ⟨s, hl, hst⟩
      | some f =>
          cases hres : claimForPlace P (some f) with
          | error e =>
              simp only [applyOp, hres]
              exact ⟨s, hl, hst⟩
          | ok r =>
              simp only [applyOp, hres]
              obtain ⟨hm, hpidx, _, _, _⟩ :=
                claimForPlace_inv P f r.1 r.2 (by rw [hres])
              obtain ⟨madd, iadd, _, h2, h3, _⟩ :=
                claimStep_foldl_spec f P.hostOfferIndex [] []
              rw [hpidx, h2, List.nil_append]
              rcases lookupA_forall2P h3 h with ⟨hn1, _⟩ | ⟨v₁, v₂, hv1, hv2, hrel⟩
              · rw [hl] at hn1
                cases hn1
              · rw [hl] at hv1
                injection hv1 with hv1
                subst hv1
                refine ⟨v₂, hv2, ?_⟩
                rcases hrel with hb | ⟨_, hb, _⟩
                · dsimp only at hb
                  rw [hb]
                  exact hst
                · dsimp only at hb
                  rw [hb]
  | claimLaunch h₀ => exact absurd hallow (by simp [allowedBetweenClaims])
  | returnUnused h₀ => exact absurd hallow (by simp [allowedBetweenClaims])

theorem foldl_applyOp_placing_preserved (ops : List PoolOp) :
    ∀ (P : PoolState) (s : HostSummary) (h : String),
      (∀ op ∈ ops, allowedBetweenClaims op = true) →
      lookupA h P.hostOfferIndex = some s →
      s.status = CacheStatus.placingOffer →
      ∃ s', lookupA h ((ops.foldl applyOp P).hostOfferIndex) = some s' ∧
        s'.status = CacheStatus.placingOffer := by
  induction ops with
  | nil =>
      intro P s h _ hl hst
      exact ⟨s, hl, hst⟩
  | cons op t ih =>
      intro P s h hallow hl hst
      rw [List.foldl_cons]
      obtain ⟨s', hs', hstat⟩ :=
        applyOp_placing_preserved P op (hallow op (List.mem_cons_self _ _)) h s hl hst
      exact ih _ s' h (fun o ho => hallow o (List.mem_cons_of_mem _ ho)) hs' hstat

theorem wf_foldl_applyOp (ops : List PoolOp) (P : PoolState) (h : wfPool P) :
    wfPool (ops.foldl applyOp P) := by
  induction ops generalizing P with
  | nil => exact h
  | cons op t ih =>
      rw [List.foldl_cons]
      exact ih _ (wf_applyOp P op h)

theorem claimForPlace_not_match_placing (P : PoolState) (f : HostFilter)
    (m : List (String × List MOffer)) (P' : PoolState)
    (hwf : (P.hostOfferIndex.map Prod.fst).Nodup)
    (hok : claimForPlace P (some f) = Except.ok (m, P')) :
    ∀ h s, lookupA h P.hostOfferIndex = some s →
      s.status = CacheStatus.placingOffer → ∀ x, (h, x) ∉ m := by
  intro h s hl hst x hmem
  obtain ⟨hm, _, _, _, _⟩ := claimForPlace_inv P f m P' hok
  obtain ⟨madd, iadd, h1, _, _, h4⟩ := claimStep_foldl_spec f P.hostOfferIndex [] []
  rw [hm, h1, List.nil_append] at hmem
  obtain ⟨s', hmem', hmatch, _, _⟩ := h4 (h, x) hmem
  have hls : lookupA h P.hostOfferIndex = some s' := mem_lookupA_of_nodup hwf hmem'
  rw [hl] at hls
  injection hls with hls
  subst hls
  have hready := of_decide_eq_true (by simpa [matchHost] using hmatch)
  rw [hst] at hready
  exact CacheStatus.noConfusion hready.1

theorem claimForPlace_matched_placing (P : PoolState) (f : HostFilter)
    (m : List (String × List MOffer)) (P' : PoolState)
    (hwf : (P.hostOfferIndex.map Prod.fst).Nodup)
    (hok : claimForPlace P (some f) = Except.ok (m, P')) :
    ∀ h x, (h, x) ∈ m → ∃ s', lookupA h P'.hostOfferIndex = some s' ∧
      s'.status = CacheStatus.placingOffer := by
  intro h x hmem
  obtain ⟨hm, hpidx, _, _, _⟩ := claimForPlace_inv P f m P' hok
  obtain ⟨madd, iadd, h1, h2, h3, h4⟩ := claimStep_foldl_spec f P.hostOfferIndex [] []
  rw [hm, h1, List.nil_append] at hmem
  obtain ⟨s, _, _, _, hiadd⟩ := h4 (h, x) hmem
  rw [hpidx, h2, List.nil_append]
  have hnodup : (iadd.map Prod.fst).Nodup := by
    rw [forall2_keys h3]
    exact hwf
  exact ⟨_, mem_lookupA_of_nodup hnodup hiadd, rfl⟩

theorem returnUnusedOffers_inv (P : PoolState) (h₀ : String) (P' : PoolState)
    (hok : returnUnusedOffers P h₀ = Except.ok P') :
    (lookupA h₀ P.hostOfferIndex = none ∧ P' = P) ∨
    (∃ s, lookupA h₀ P.hostOfferIndex = some s ∧
       s.status = CacheStatus.placingOffer ∧
       P' = { P with
         hostOfferIndex :=
           insertA h₀ ⟨CacheStatus.readyOffer, s.offers⟩ P.hostOfferIndex,
         placingResources := decQuantity P.placingResources (bagSum s.offers),
         readyResources := incQuantity P.readyResources (bagSum s.offers) }) := by
  cases hl : lookupA h₀ P.hostOfferIndex with
  | none =>
      left
      simp only [returnUnusedOffers, hl] at hok
      injection hok with hok
      exact ⟨rfl, hok.symm⟩
  | some s =>
      right
      simp only [returnUnusedOffers, hl, HostSummary.casStatus] at hok
      by_cases hst : s.status = CacheStatus.placingOffer
      · rw [if_pos hst] at hok
        simp only at hok
        injection hok with hok
        exact ⟨s, rfl, hst, hok.symm⟩
      · rw [if_neg hst] at hok
        cases hok

theorem lookupA_filter_some {V : Type} {p : String × V → Bool} {m : SMap V}
    (hn : (m.map Prod.fst).Nodup) {k : String} {v : V}
    (h : lookupA k (m.filter p) = some v) : lookupA k m = some v :=
  mem_lookupA_of_nodup hn (List.mem_of_mem_filter (lookupA_mem h))

theorem foldl_insert_timed_lookup (offers : List MOffer) (exp : Nat)
    (m : SMap TimedOffer) (oid : String) :
    (∃ o ∈ offers, o.oid = oid ∧
       lookupA oid
         (offers.foldl (fun t o => insertA o.oid ⟨o.hostname, exp⟩ t) m)
         = some ⟨o.hostname, exp⟩) ∨
    (oid ∉ offers.map MOffer.oid ∧
       lookupA oid
         (offers.foldl (fun t o => insertA o.oid ⟨o.hostname, exp⟩ t) m)
         = lookupA oid m) := by
  induction offers generalizing m with
  | nil => exact Or.inr (by simp)
  | cons o t ih =>
      rw [List.foldl_cons]
      rcases ih (insertA o.oid ⟨o.hostname, exp⟩ m) with
        ⟨o', ho', hoid, hlk⟩ | ⟨hnot, hlk⟩
      · exact Or.inl ⟨o', List.mem_cons_of_mem _ ho', hoid, hlk⟩
      · by_cases heq : o.oid = oid
        · refine Or.inl ⟨o, List.mem_cons_self _ _, heq, ?_⟩
          rw [hlk, ← heq, lookupA_insertA_self]
        · refine Or.inr ⟨?_, ?_⟩
          · simp only [List.map_cons, List.mem_cons]
            intro hc
            rcases hc with hc | hc
            · exact heq hc.symm
            · exact hnot hc
          · rw [hlk, lookupA_insertA_ne _ _ heq]

theorem addOneOffer_inv1 (hostOf : String → String) (P : PoolState) (o : MOffer)
    (hco : o.hostname = hostOf o.oid)
    (hinv : ∀ h s, lookupA h P.hostOfferIndex = some s →
      ∀ oid x, lookupA oid s.offers = some x → hostOf oid = h) :
    ∀ h s, lookupA h (addOneOffer P o).hostOfferIndex = some s →
      ∀ oid x, lookupA oid s.offers = some x → hostOf oid = h := by
  intro h s hl oid x hbag
  rw [addOneOffer_idx] at hl
  by_cases hh : o.hostname = h
  · subst hh
    rw [lookupA_insertA_self] at hl
    injection hl with hl
    subst hl
    dsimp only at hbag
    rw [lookupA_insertA] at hbag
    by_cases ho : o.oid = oid
    · rw [← ho, ← hco]
    · rw [if_neg ho] at hbag
      cases hgd : lookupA o.hostname P.hostOfferIndex with
      | none =>
          rw [hgd] at hbag
          simp [HostSummary.new] at hbag
      | some s₀ =>
          rw [hgd] at hbag
          exact hinv o.hostname s₀ hgd oid x hbag
  · rw [lookupA_insertA_ne _ _ hh] at hl
    exact hinv h s hl oid x hbag

theorem addOneOffer_present_self (P : PoolState) (o : MOffer) :
    ∃ s, lookupA o.hostname (addOneOffer P o).hostOfferIndex = some s ∧
      (lookupA o.oid s.offers).isSome = true := by
  rw [addOneOffer_idx]
  exact ⟨_, lookupA_insertA_self _ _ _, by simp⟩

theorem addOneOffer_present_mono (P : PoolState) (o : MOffer) (k oid : String)
    (hp : ∃ s, lookupA k P.hostOfferIndex = some s ∧
      (lookupA oid s.offers).isSome = true) :
    ∃ s, lookupA k (addOneOffer P o).hostOfferIndex = some s ∧
      (lookupA oid s.offers).isSome = true := by
  obtain ⟨s, hl, hbag⟩ := hp
  rw [addOneOffer_idx]
  by_cases hh : o.hostname = k
  · subst hh
    refine ⟨_, lookupA_insertA_self _ _ _, ?_⟩
    simp only [hl, Option.getD_some, lookupA_insertA]
    by_cases ho : o.oid = oid <;> simp [ho, hbag]
  · rw [lookupA_insertA_ne _ _ hh]
    exact ⟨s, hl, hbag⟩

theorem foldl_addOneOffer_inv1 (hostOf : String → String) (offers : List MOffer) :
    ∀ P : PoolState,
      (∀ o ∈ offers, o.hostname = hostOf o.oid) →
      (∀ h s, lookupA h P.hostOfferIndex = some s →
        ∀ oid x, lookupA oid s.offers = some x → hostOf oid = h) →
      ∀ h s, lookupA h ((offers.foldl addOneOffer P).hostOfferIndex) = some s →
        ∀ oid x, lookupA oid s.offers = some x → hostOf oid = h := by
  induction offers with
  | nil => intro P _ hinv; exact hinv
  | cons o t ih =>
      intro P hc hinv
      rw [List.foldl_cons]
      exact ih _ (fun o' ho' => hc o' (List.mem_cons_of_mem _ ho'))
        (addOneOffer_inv1 hostOf P o (hc o (List.mem_cons_self _ _)) hinv)

theorem foldl_addOneOffer_present_mono (offers : List MOffer) :
    ∀ (P : PoolState) (k oid : String),
      (∃ s, lookupA k P.hostOfferIndex = some s ∧
        (lookupA oid s.offers).isSome = true) →
      ∃ s, lookupA k ((offers.foldl addOneOffer P).hostOfferIndex) = some s ∧
        (lookupA oid s.offers).isSome = true := by
  induction offers with
  | nil => intro P k oid hp; exact hp
  | cons o t ih =>
      intro P k oid hp
      rw [List.foldl_cons]
      exact ih _ k oid (addOneOffer_present_mono P o k oid hp)

theorem foldl_addOneOffer_present (offers : List MOffer) :
    ∀ (P : PoolState) (o : MOffer), o ∈ offers →
      ∃ s, lookupA o.hostname ((offers.foldl addOneOffer P).hostOfferIndex)
          = some s ∧
        (lookupA o.oid s.offers).isSome = true := by
  induction offers with
  | nil =>
      intro P o ho
      cases ho
  | cons o₀ t ih =>
      intro P o ho
      rw [List.foldl_cons]
      rcases List.mem_cons.mp ho with ho | ho
      · subst ho
        exact foldl_addOneOffer_present_mono t _ o.hostname o.oid
          (addOneOffer_present_self P o)
      · exact ih _ o ho

theorem removeExpiredStep_present_mono (Q : PoolState) (e : String × TimedOffer)
    (k oid : String) (hne : e.1 ≠ oid)
    (hp : ∃ s, lookupA k Q.hostOfferIndex = some s ∧
      (lookupA oid s.offers).isSome = true) :
    ∃ s, lookupA k (removeExpiredStep Q e).hostOfferIndex = some s ∧
      (lookupA oid s.offers).isSome = true := by
  obtain ⟨s, hl, hbag⟩ := hp
  rw [removeExpiredStep_idx]
  cases h2 : lookupA e.2.hostname Q.hostOfferIndex with
  | none =>
      simp only [h2]
      exact ⟨s, hl, hbag⟩
  | some s₀ =>
      simp only [h2]
      by_cases hh : e.2.hostname = k
      · subst hh
        have hss : s₀ = s := Option.some.inj (h2.symm.trans hl)
        subst hss
        refine ⟨_, lookupA_insertA_self _ _ _, ?_⟩
        dsimp only
        rw [lookupA_eraseA, if_neg hne]
        exact hbag
      · rw [lookupA_insertA_ne _ _ hh]
        exact ⟨s, hl, hbag⟩

theorem foldl_removeExpiredStep_present_mono (l : List (String × TimedOffer)) :
    ∀ (Q : PoolState) (k oid : String),
      (∀ e ∈ l, e.1 ≠ oid) →
      (∃ s, lookupA k Q.hostOfferIndex = some s ∧
        (lookupA oid s.offers).isSome = true) →
      ∃ s, lookupA k ((l.foldl removeExpiredStep Q).hostOfferIndex) = some s ∧
        (lookupA oid s.offers).isSome = true := by
  induction l with
  | nil => intro Q k oid _ hp; exact hp
  | cons e t ih =>
      intro Q k oid hne hp
      rw [List.foldl_cons]
      exact ih _ k oid (fun e' he' => hne e' (List.mem_cons_of_mem _ he'))
        (removeExpiredStep_present_mono Q e k oid
          (hne e (List.mem_cons_self _ _)) hp)

theorem claimForLaunchPool_inv (P : PoolState) (h₀ : String)
    (r : SMap MOffer × PoolState)
    (hok : claimForLaunchPool P h₀ = Except.ok r) :
    ∃ s, lookupA h₀ P.hostOfferIndex = some s ∧
      s.status = CacheStatus.placingOffer ∧
      r.1 = s.offers ∧
      r.2 = { P with
        hostOfferIndex :=
          insertA h₀ ⟨CacheStatus.readyOffer, []⟩ P.hostOfferIndex,
        timedOffers := s.offers.foldl (fun t e => eraseA e.1 t) P.timedOffers,
        placingResources := decQuantity P.placingResources (bagSum s.offers) } := by
  cases hl : lookupA h₀ P.hostOfferIndex with
  | none =>
      simp only [claimForLaunchPool, hl] at hok
      cases hok
  | some s =>
      simp only [claimForLaunchPool, hl, HostSummary.claimForLaunch] at hok
      by_cases hst : s.status = CacheStatus.placingOffer
      · rw [if_pos hst] at hok
        simp only at hok
        injection hok with hok
        exact ⟨s, rfl, hst, (congrArg Prod.fst hok).symm,
          (congrArg Prod.snd hok).symm⟩
      · rw [if_neg hst] at hok
        cases hok

theorem removeExpiredStep_inv1 (hostOf : String → String) (Q : PoolState)
    (e : String × TimedOffer)
    (hinv : ∀ h s, lookupA h Q.hostOfferIndex = some s →
      ∀ oid x, lookupA oid s.offers = some x → hostOf oid = h) :
    ∀ h s, lookupA h (removeExpiredStep Q e).hostOfferIndex = some s →
      ∀ oid x, lookupA oid s.offers = some x → hostOf oid = h := by
  intro h s hl oid x hbag
  rw [removeExpiredStep_idx] at hl
  cases h2 : lookupA e.2.hostname Q.hostOfferIndex with
  | none =>
      simp only [h2] at hl
      exact hinv h s hl oid x hbag
  | some s₀ =>
      simp only [h2] at hl
      by_cases hh : e.2.hostname = h
      · subst hh
        rw [lookupA_insertA_self] at hl
        injection hl with hl
        subst hl
        dsimp only at hbag
        rw [lookupA_eraseA] at hbag
        by_cases he : e.1 = oid
        · rw [if_pos he] at hbag
          cases hbag
        · rw [if_neg he] at hbag
          exact hinv e.2.hostname s₀ h2 oid x hbag
      · rw [lookupA_insertA_ne _ _ hh] at hl
        exact hinv h s hl oid x hbag

theorem foldl_removeExpiredStep_inv1 (hostOf : String → String)
    (l : List (String × TimedOffer)) :
    ∀ Q : PoolState,
      (∀ h s, lookupA h Q.hostOfferIndex = some s →
        ∀ oid x, lookupA oid s.offers = some x → hostOf oid = h) →
      ∀ h s, lookupA h ((l.foldl removeExpiredStep Q).hostOfferIndex) = some s →
        ∀ oid x, lookupA oid s.offers = some x → hostOf oid = h := by
  induction l with
  | nil => intro Q hinv; exact hinv
  | cons e t ih =>
      intro Q hinv
      rw [List.foldl_cons]
      exact ih _ (removeExpiredStep_inv1 hostOf Q e hinv)

theorem bagInv_applyOp (hostOf : String → String) (P : PoolState) (op : PoolOp)
    (hwf : wfPool P) (hinv : bagInv hostOf P) (hop : opConsistent hostOf op) :
    bagInv hostOf (applyOp P op) := by
  obtain ⟨hinv1, hinv2⟩ := hinv
  cases op with
  | add offers exp =>
      simp only [opConsistent] at hop
      constructor
      · intro h s hl oid x hbag
        simp only [applyOp, addOffers] at hl
        exact foldl_addOneOffer_inv1 hostOf offers P hop hinv1 h s hl oid x hbag
      · intro oid t htl
        simp only [applyOp, addOffers] at htl ⊢
        rw [foldl_addOneOffer_timed] at htl
        rcases foldl_insert_timed_lookup offers exp P.timedOffers oid with
          ⟨o, ho, hoid, hlk⟩ | ⟨hnot, hlk⟩
        · have hto : t = ⟨o.hostname, exp⟩ := Option.some.inj (htl.symm.trans hlk)
          subst hto
          constructor
          · dsimp only
            rw [hop o ho, hoid]
          · rw [← hoid, ← hop o ho]
            exact foldl_addOneOffer_present offers P o ho
        · rw [hlk] at htl
          obtain ⟨hhn, hpres⟩ := hinv2 oid t htl
          exact ⟨hhn, foldl_addOneOffer_present_mono offers P _ oid hpres⟩
  | rescind oid₀ =>
      constructor
      · intro h s hl oid x hbag
        simp only [applyOp] at hl
        rw [rescindOffer_idx] at hl
        cases h1 : lookupA oid₀ P.timedOffers with
        | none =>
            simp only [h1] at hl
            exact hinv1 h s hl oid x hbag
        | some t =>
            simp only [h1] at hl
            cases h2 : lookupA t.hostname P.hostOfferIndex with
            | none =>
                simp only [h2] at hl
                exact hinv1 h s hl oid x hbag
            | some s₀ =>
                simp only [h2] at hl
                by_cases hh : t.hostname = h
                · subst hh
                  rw [lookupA_insertA_self] at hl
                  injection hl with hl
                  subst hl
                  dsimp only at hbag
                  rw [lookupA_eraseA] at hbag
                  by_cases he : oid₀ = oid
                  · rw [if_pos he] at hbag
                    cases hbag
                  · rw [if_neg he] at hbag
                    exact hinv1 t.hostname s₀ h2 oid x hbag
                · rw [lookupA_insertA_ne _ _ hh] at hl
                  exact hinv1 h s hl oid x hbag
      · intro oid t htl
        simp only [applyOp] at htl ⊢
        rw [rescindOffer_timed] at htl
        cases h1 : lookupA oid₀ P.timedOffers with
        | none =>
            simp only [h1] at htl
            obtain ⟨hhn, hpres⟩ := hinv2 oid t htl
            refine ⟨hhn, ?_⟩
            rw [rescindOffer_idx]
            simp only [h1]
            exact hpres
        | some t₀ =>
            simp only [h1] at htl
            rw [lookupA_eraseA] at htl
            by_cases he : oid₀ = oid
            · rw [if_pos he] at htl
              cases htl
            · rw [if_neg he] at htl
              obtain ⟨hhn, hpres⟩ := hinv2 oid t htl
              refine ⟨hhn, ?_⟩
              rw [rescindOffer_idx]
              simp only [h1]
              cases h2 : lookupA t₀.hostname P.hostOfferIndex with
              | none =>
                  simp only [h2]
                  exact hpres
              | some s₀ =>
                  simp only [h2]
                  obtain ⟨s, hls, hbag⟩ := hpres
                  by_cases hh : t₀.hostname = hostOf oid
                  · rw [← hh] at hls
                    have hss : s₀ = s := Option.some.inj (h2.symm.trans hls)
                    subst hss
                    rw [← hh]
                    refine ⟨_, lookupA_insertA_self _ _ _, ?_⟩
                    dsimp only
                    rw [lookupA_eraseA, if_neg he]
                    exact hbag
                  · rw [lookupA_insertA_ne _ _ hh]
                    exact ⟨s, hls, hbag⟩
  | removeExpired now =>
      constructor
      · intro h s hl oid x hbag
        simp only [applyOp, removeExpiredOffers] at hl
        exact foldl_removeExpiredStep_inv1 hostOf _ _
          (fun h' s' hl' => hinv1 h' s' (by simpa using hl')) h s hl oid x hbag
      · intro oid t htl
        simp only [applyOp, removeExpiredOffers] at htl ⊢
        rw [foldl_removeExpiredStep_timedOffers] at htl
        have htl' : lookupA oid P.timedOffers = some t :=
          lookupA_filter_some hwf.2 htl
        obtain ⟨hhn, hpres⟩ := hinv2 oid t htl'
        refine ⟨hhn, ?_⟩
        refine foldl_removeExpiredStep_present_mono _ _ _ _ ?_ ?_
        · intro e he hcon
          have hmem1 : e ∈ P.timedOffers := (List.mem_filter.mp he).1
          have hp : decide (e.2.expiration < now) = true := (List.mem_filter.mp he).2
          have hle : lookupA e.1 P.timedOffers = some e.2 :=
            mem_lookupA_of_nodup hwf.2 (by simpa using hmem1)
          rw [hcon] at hle
          have he2 : e.2 = t := Option.some.inj (hle.symm.trans htl')
          have hq := (List.mem_filter.mp (lookupA_mem htl)).2
          rw [he2] at hp
          simp only [Bool.not_eq_true'] at hq
          simp only [decide_eq_true_eq] at hp
          simp only [decide_eq_false_iff_not] at hq
          exact hq hp
        · obtain ⟨s, hls, hbag⟩ := hpres
          exact ⟨s, by simpa using hls, hbag⟩
  | claimPlace f? =>
      cases f? with
      | none =>
          simp only [applyOp, claimForPlace]
          exact ⟨hinv1, hinv2⟩
      | some f =>
          cases hres : claimForPlace P (some f) with
          | error e =>
              simp only [applyOp, hres]
              exact ⟨hinv1, hinv2⟩
          | ok r =>
              simp only [applyOp, hres]
              obtain ⟨hm, hpidx, hptimed, _, _⟩ :=
                claimForPlace_inv P f r.1 r.2 (by rw [hres])
              obtain ⟨madd, iadd, _, h2, h3, _⟩ :=
                claimStep_foldl_spec f P.hostOfferIndex [] []
              have hidx2 : r.2.hostOfferIndex = iadd := by
                rw [hpidx, h2, List.nil_append]
              constructor
              · intro h s hl oid x hbag
                rw [hidx2] at hl
                rcases lookupA_forall2P h3 h with ⟨hn1, hn2⟩ |
                  ⟨v₁, v₂, hv1, hv2, hrel⟩
                · rw [hl] at hn2
                  cases hn2
                · rw [hl] at hv2
                  injection hv2 with hv2
                  subst hv2
                  have hoff : s.offers = v₁.offers := by
                    rcases hrel with hb | ⟨_, hb, _⟩ <;> dsimp only at hb <;>
                      rw [hb]
                  rw [hoff] at hbag
                  exact hinv1 h v₁ hv1 oid x hbag
              · intro oid t htl
                rw [hptimed] at htl
                obtain ⟨hhn, hpres⟩ := hinv2 oid t htl
                refine ⟨hhn, ?_⟩
                rw [hidx2]
                obtain ⟨s, hls, hbag⟩ := hpres
                rcases lookupA_forall2P h3 (hostOf oid) with ⟨hn1, hn2⟩ |
                  ⟨v₁, v₂, hv1, hv2, hrel⟩
                · rw [hls] at hn1
                  cases hn1
                · rw [hls] at hv1
                  injection hv1 with hv1
                  subst hv1
                  refine ⟨v₂, hv2, ?_⟩
                  have hoff : v₂.offers = s.offers := by
                    rcases hrel with hb | ⟨_, hb, _⟩ <;> dsimp only at hb <;>
                      rw [hb]
                  rw [hoff]
                  exact hbag
  | claimLaunch h₀ =>
      cases hres : claimForLaunchPool P h₀ with
      | error e =>
          simp only [applyOp, hres]
          exact ⟨hinv1, hinv2⟩
      | ok r =>
          simp only [applyOp, hres]
          obtain ⟨s₀, hl₀, hst₀, hr1, hr2⟩ := claimForLaunchPool_inv P h₀ r hres
          constructor
          · intro h s hl oid x hbag
            simp only [hr2] at hl
            by_cases hh : h₀ = h
            · subst hh
              rw [lookupA_insertA_self] at hl
              injection hl with hl
              subst hl
              simp [lookupA] at hbag
            · rw [lookupA_insertA_ne _ _ hh] at hl
              exact hinv1 h s hl oid x hbag
          · intro oid t htl
            simp only [hr2] at htl
            rw [lookupA_foldl_eraseA] at htl
            by_cases hin : oid ∈ s₀.offers.map Prod.fst
            · rw [if_pos hin] at htl
              cases htl
            · rw [if_neg hin] at htl
              obtain ⟨hhn, hpres⟩ := hinv2 oid t htl
              refine ⟨hhn, ?_⟩
              simp only [hr2]
              obtain ⟨s, hls, hbag⟩ := hpres
              by_cases hh : h₀ = hostOf oid
              · exfalso
                rw [← hh] at hls
                have hss : s = s₀ := Option.some.inj (hls.symm.trans hl₀)
                rw [hss, lookupA_eq_none_iff.mpr hin] at hbag
                cases hbag
              · refine ⟨s, ?_, hbag⟩
                rw [lookupA_insertA_ne _ _ hh]
                exact hls
  | returnUnused h₀ =>
      cases hres : returnUnusedOffers P h₀ with
      | error e =>
          simp only [applyOp, hres]
          exact ⟨hinv1, hinv2⟩
      | ok P' =>
          simp only [applyOp, hres]
          rcases returnUnusedOffers_inv P h₀ P' hres with ⟨_, hP⟩ |
            ⟨s₀, hl₀, _, hP⟩
          · subst hP
            exact ⟨hinv1, hinv2⟩
          · constructor
            · intro h s hl oid x hbag
              simp only [hP] at hl
              by_cases hh : h₀ = h
              · subst hh
                rw [lookupA_insertA_self] at hl
                injection hl with hl
                subst hl
                dsimp only at hbag
                exact hinv1 h₀ s₀ hl₀ oid x hbag
              · rw [lookupA_insertA_ne _ _ hh] at hl
                exact hinv1 h s hl oid x hbag
            · intro oid t htl
              simp only [hP] at htl ⊢
              obtain ⟨hhn, hpres⟩ := hinv2 oid t htl
              refine ⟨hhn, ?_⟩
              obtain ⟨s, hls, hbag⟩ := hpres
              by_cases hh : h₀ = hostOf oid
              · rw [← hh] at hls
                have hss : s = s₀ := Option.some.inj (hls.symm.trans hl₀)
                rw [← hh]
                refine ⟨⟨CacheStatus.readyOffer, s₀.offers⟩,
                  lookupA_insertA_self _ _ _, ?_⟩
                dsimp only
                rw [← hss]
                exact hbag
              · rw [lookupA_insertA_ne _ _ hh]
                exact ⟨s, hls, hbag⟩

theorem bagInv_foldl_applyOp (hostOf : String → String) (ops : List PoolOp) :
    ∀ P : PoolState, wfPool P → bagInv hostOf P →
      (∀ op ∈ ops, opConsistent hostOf op) →
      bagInv hostOf (ops.foldl applyOp P) := by
  induction ops with
  | nil =>
      intro P _ hinv _
      exact hinv
  | cons op t ih =>
      intro P hwf hinv hops
      rw [List.foldl_cons]
      exact ih _ (wf_applyOp P op hwf)
        (bagInv_applyOp hostOf P op hwf hinv (hops op (List.mem_cons_self op t)))
        (fun o ho => hops o (List.mem_cons_of_mem _ ho))

theorem bagInv_emptyPool (hostOf : String → String) : bagInv hostOf emptyPool := by
  constructor
  · intro h s hl
    simp [emptyPool, lookupA] at hl
  · intro oid t htl
    simp [emptyPool, lookupA] at htl

/-! ## Claims -/

/-- Claim C9, counterexample: CreateJob invoked on a non-leader instance
fails, but the surfaced error is UNAVAILABLE, not FAILED_PRECONDITION as
the claim states. -/
theorem claimC9_counterexample :
    createJob false (Except.ok ()) =
      Except.error ⟨ErrKind.unavailable,
        "JobSVC.CreateJob is not supported on non-leader"⟩ ∧
    ErrKind.unavailable ≠ ErrKind.failedPrecondition :=
  ⟨rfl, by decide⟩

/-- Claim C9, amended: every state-mutating Job Manager RPC (CreateJob,
RefreshJob) invoked on an instance that is not the cluster leader fails,
and the error surfaced is of kind UNAVAILABLE. -/
theorem claimC9_nonleader_unavailable {Resp : Type}
    (rest rest' : Except YError Resp) :
    (∃ e, createJob false rest = Except.error e ∧ e.kind = ErrKind.unavailable) ∧
    (∃ e, refreshJob false rest' = Except.error e ∧ e.kind = ErrKind.unavailable) ∧
    ErrKind.unavailable ≠ ErrKind.failedPrecondition :=
  ⟨⟨_, rfl, rfl⟩, ⟨_, rfl, rfl⟩, by decide⟩

/-- Claim C10: when RescindOffer is called with an offer id that is in
timedOffers but whose recorded hostname is absent from the host summary
index, it returns false although the timedOffers entry is already deleted;
nothing else of the state changes, so a false return does not imply the
pool was left unchanged. -/
theorem claimC10_rescind_false_after_delete (P : PoolState) (oid : String)
    (t : TimedOffer)
    (h1 : lookupA oid P.timedOffers = some t)
    (h2 : lookupA t.hostname P.hostOfferIndex = none) :
    (rescindOffer P oid).1 = false ∧
    lookupA oid (rescindOffer P oid).2.timedOffers = none ∧
    (rescindOffer P oid).2 = { P with timedOffers := eraseA oid P.timedOffers } := by
  simp only [rescindOffer, h1]
  simp [h2, lookupA_eraseA_self]

/-- Claim C10 witness at a one-offer pool whose host summary is missing. -/
theorem claimC10_witness :
    (rescindOffer ⟨[], [("o1", ⟨"h1", 5⟩)], Resources.zero, Resources.zero⟩ "o1").1
      = false ∧
    lookupA "o1"
      (rescindOffer ⟨[], [("o1", ⟨"h1", 5⟩)], Resources.zero, Resources.zero⟩
        "o1").2.timedOffers = none := by
  have h := claimC10_rescind_false_after_delete
    ⟨[], [("o1", ⟨"h1", 5⟩)], Resources.zero, Resources.zero⟩ "o1" ⟨"h1", 5⟩
    (by decide) (by decide)
  exact ⟨h.1, h.2.1⟩

/-- Claim C3: MarkItDone subtracts the task's resource from its pool's
allocation exactly when the task's state is in READY, PLACING, PLACED,
LAUNCHING, LAUNCHED, RUNNING or RESERVED; from INITIALIZED or PENDING the
allocation is untouched; and since the task is removed, a second
MarkItDone is a no-op, so no contribution is subtracted twice. -/
theorem claimC3_markItDone (tr : Tracker) (tid : String) (t : RMTask)
    (a : Resources)
    (ht : lookupA tid tr.tasks = some t)
    (ha : lookupA t.poolId tr.alloc = some a) :
    (subtractsAllocation t.state = true →
       lookupA t.poolId (markItDone tr tid).alloc = some (a.sub t.res)) ∧
    (subtractsAllocation t.state = false →
       (markItDone tr tid).alloc = tr.alloc) ∧
    ((t.state = TaskState.initialized ∨ t.state = TaskState.pending) →
       (markItDone tr tid).alloc = tr.alloc) ∧
    markItDone (markItDone tr tid) tid = markItDone tr tid := by
  refine ⟨?_, ?_, ?_, ?_⟩
  · intro hs
    simp [markItDone, ht, hs, subtractFromAllocation, ha]
  · intro hs
    simp [markItDone, ht, hs]
  · intro hs
    have hfalse : subtractsAllocation t.state = false := by
      rcases hs with hs | hs <;> rw [hs] <;> rfl
    simp [markItDone, ht, hfalse]
  · have hnone : lookupA tid (markItDone tr tid).tasks = none := by
      simp [markItDone, ht, lookupA_eraseA_self]
    generalize hM : markItDone tr tid = M at hnone ⊢
    simp [markItDone, hnone]

/-- Claim C3 witness: a two-pool tracker with a READY task (subtracted)
exercised through the theorem at a concrete state. -/
theorem claimC3_witness :
    (subtractsAllocation TaskState.ready = true →
       lookupA "pool1"
         (markItDone ⟨[("t1", ⟨TaskState.ready, ⟨1, 2, 3, 0⟩, "pool1"⟩)],
            [("pool1", ⟨4, 4, 4, 4⟩)]⟩ "t1").alloc
         = some (Resources.sub ⟨4, 4, 4, 4⟩ ⟨1, 2, 3, 0⟩)) ∧
    (subtractsAllocation TaskState.ready = false →
       (markItDone ⟨[("t1", ⟨TaskState.ready, ⟨1, 2, 3, 0⟩, "pool1"⟩)],
          [("pool1", ⟨4, 4, 4, 4⟩)]⟩ "t1").alloc = [("pool1", ⟨4, 4, 4, 4⟩)]) ∧
    ((TaskState.ready = TaskState.initialized ∨
        TaskState.ready = TaskState.pending) →
       (markItDone ⟨[("t1", ⟨TaskState.ready, ⟨1, 2, 3, 0⟩, "pool1"⟩)],
          [("pool1", ⟨4, 4, 4, 4⟩)]⟩ "t1").alloc = [("pool1", ⟨4, 4, 4, 4⟩)]) ∧
    markItDone
      (markItDone ⟨[("t1", ⟨TaskState.ready, ⟨1, 2, 3, 0⟩, "pool1"⟩)],
         [("pool1", ⟨4, 4, 4, 4⟩)]⟩ "t1") "t1"
      = markItDone ⟨[("t1", ⟨TaskState.ready, ⟨1, 2, 3, 0⟩, "pool1"⟩)],
          [("pool1", ⟨4, 4, 4, 4⟩)]⟩ "t1" :=
  claimC3_markItDone
    ⟨[("t1", ⟨TaskState.ready, ⟨1, 2, 3, 0⟩, "pool1"⟩)],
      [("pool1", ⟨4, 4, 4, 4⟩)]⟩ "t1"
    ⟨TaskState.ready, ⟨1, 2, 3, 0⟩, "pool1"⟩ ⟨4, 4, 4, 4⟩ (by decide) (by decide)

/-- Claim C7: a FAILED status event with a retryable reason and
failures_count below max_failures rewrites the runtime to INITIALIZED with
the failure counter incremented and a new mesos task id and re-enqueues
the task into its own pool; with no retry the runtime is written FAILED
with the reason recorded and nothing is enqueued. -/
theorem claimC7_failed_update_retry (info : TaskInfo) (reason : FailReason)
    (msg freshId : String)
    (hfresh : freshId ≠ info.runtime.mesosTaskId) :
    (isRetryableReason reason = true →
     info.runtime.failuresCount < info.maxFailures →
       (processFailedUpdate info reason msg freshId).1.state
           = TaskState.initialized ∧
       (processFailedUpdate info reason msg freshId).1.failuresCount
           = info.runtime.failuresCount + 1 ∧
       (processFailedUpdate info reason msg freshId).1.mesosTaskId
           ≠ info.runtime.mesosTaskId ∧
       (processFailedUpdate info reason msg freshId).2
           = some ⟨info.respoolId⟩) ∧
    (¬ (isRetryableReason reason = true ∧
          info.runtime.failuresCount < info.maxFailures) →
       (processFailedUpdate info reason msg freshId).1.state = TaskState.failed ∧
       (processFailedUpdate info reason msg freshId).1.reason
           = reasonString reason ∧
       (processFailedUpdate info reason msg freshId).2 = none) := by
  constructor
  · intro hr hc
    have hcond : isRetryableReason reason ∧
        info.runtime.failuresCount < info.maxFailures := ⟨hr, hc⟩
    simp [processFailedUpdate, if_pos hcond, hfresh]
  · intro hn
    have hcond : ¬ (isRetryableReason reason ∧
        info.runtime.failuresCount < info.maxFailures) := by
      intro hcontra
      exact hn ⟨hcontra.1, hcontra.2⟩
    simp [processFailedUpdate, if_neg hcond]

/-- Claim C7 witness at a concrete failed task with max_failures 3 and one
with max_failures 0, exercised through the retry theorem. -/
theorem claimC7_witness :
    (isRetryableReason FailReason.containerLaunchFailed = true → 0 < 3 →
       (processFailedUpdate
          ⟨⟨TaskState.running, "m0", 0, "", ""⟩, 3, "respool-1"⟩
          FailReason.containerLaunchFailed "testFailure" "m1").1.state
           = TaskState.initialized ∧
       (processFailedUpdate
          ⟨⟨TaskState.running, "m0", 0, "", ""⟩, 3, "respool-1"⟩
          FailReason.containerLaunchFailed "testFailure" "m1").1.failuresCount
           = 0 + 1 ∧
       (processFailedUpdate
          ⟨⟨TaskState.running, "m0", 0, "", ""⟩, 3, "respool-1"⟩
          FailReason.containerLaunchFailed "testFailure" "m1").1.mesosTaskId
           ≠ "m0" ∧
       (processFailedUpdate
          ⟨⟨TaskState.running, "m0", 0, "", ""⟩, 3, "respool-1"⟩
          FailReason.containerLaunchFailed "testFailure" "m1").2
           = some ⟨"respool-1"⟩) ∧
    (¬ (isRetryableReason FailReason.containerLaunchFailed = true ∧ 0 < 3) →
       (processFailedUpdate
          ⟨⟨TaskState.running, "m0", 0, "", ""⟩, 3, "respool-1"⟩
          FailReason.containerLaunchFailed "testFailure" "m1").1.state
           = TaskState.failed ∧
       (processFailedUpdate
          ⟨⟨TaskState.running, "m0", 0, "", ""⟩, 3, "respool-1"⟩
          FailReason.containerLaunchFailed "testFailure" "m1").1.reason
           = reasonString FailReason.containerLaunchFailed ∧
       (processFailedUpdate
          ⟨⟨TaskState.running, "m0", 0, "", ""⟩, 3, "respool-1"⟩
          FailReason.containerLaunchFailed "testFailure" "m1").2 = none) :=
  claimC7_failed_update_retry
    ⟨⟨TaskState.running, "m0", 0, "", ""⟩, 3, "respool-1"⟩
    FailReason.containerLaunchFailed "testFailure" "m1" (by decide)

/-- Claim C4, counterexample: on the empty pool, AddOffers creates a host
summary that RescindOffer never removes, so AddOffers followed by a
successful RescindOffer does not restore the initial pool state: the host
summary index differs. -/
theorem claimC4_counterexample :
    (rescindOffer (addOffers emptyPool [⟨"o1", "h1", ⟨1, 1, 1, 0⟩⟩] 5) "o1").1
      = true ∧
    (rescindOffer (addOffers emptyPool [⟨"o1", "h1", ⟨1, 1, 1, 0⟩⟩] 5) "o1").2
      ≠ emptyPool := by
  constructor
  · decide
  · decide

/-- Claim C4, amended: for every pool state P whose accounting buckets are
nonnegative and whose host index already holds a summary for the offer's
hostname, and an offer whose id is indexed neither in timed_offers nor in
that summary's bag, AddOffers of the offer followed by RescindOffer of its
id returns true and restores the pool state P exactly (timed_offers,
host-summary index, ready_resources and placing_resources). -/
theorem claimC4_add_rescind_roundtrip (P : PoolState) (o : MOffer) (exp : Nat)
    (s : HostSummary)
    (hhost : lookupA o.hostname P.hostOfferIndex = some s)
    (htimed : lookupA o.oid P.timedOffers = none)
    (hbag : lookupA o.oid s.offers = none)
    (hready : P.readyResources.nonneg)
    (hplacing : P.placingResources.nonneg) :
    rescindOffer (addOffers P [o] exp) o.oid = (true, P) := by
  have hts : eraseA o.oid
      (insertA o.oid (⟨o.hostname, exp⟩ : TimedOffer) P.timedOffers)
      = P.timedOffers := eraseA_insertA_not_member _ htimed
  have hbs : eraseA o.oid (insertA o.oid o s.offers) = s.offers :=
    eraseA_insertA_not_member _ hbag
  cases hstat : s.status with
  | readyOffer =>
      have hseta : (⟨CacheStatus.readyOffer, s.offers⟩ : HostSummary) = s := by
        cases s
        simp_all
      simp [addOffers, addOneOffer, hhost, HostSummary.addMesosOffer, hstat,
        rescindOffer, HostSummary.removeMesosOffer, incQuantity, decQuantity,
        hts, hbs, insertA_insertA, hseta, insertA_self_of_lookup hhost, fromOffer,
        Resources.add_sub_cancel_of_nonneg o.res hready]
  | placingOffer =>
      have hseta : (⟨CacheStatus.placingOffer, s.offers⟩ : HostSummary) = s := by
        cases s
        simp_all
      simp [addOffers, addOneOffer, hhost, HostSummary.addMesosOffer, hstat,
        rescindOffer, HostSummary.removeMesosOffer, incQuantity, decQuantity,
        hts, hbs, insertA_insertA, hseta, insertA_self_of_lookup hhost, fromOffer,
        Resources.add_sub_cancel_of_nonneg o.res hplacing]
  | reservedOffer =>
      have hseta : (⟨CacheStatus.reservedOffer, s.offers⟩ : HostSummary) = s := by
        cases s
        simp_all
      simp [addOffers, addOneOffer, hhost, HostSummary.addMesosOffer, hstat,
        rescindOffer, HostSummary.removeMesosOffer, incQuantity, decQuantity,
        hts, hbs, insertA_insertA, hseta, insertA_self_of_lookup hhost, fromOffer]

/-- Claim C4 witness: the round trip at a concrete one-host pool. -/
theorem claimC4_witness :
    rescindOffer
      (addOffers
        ⟨[("h1", ⟨CacheStatus.readyOffer, [("o0", ⟨"o0", "h1", ⟨2, 2, 2, 0⟩⟩)]⟩)],
         [("o0", ⟨"h1", 9⟩)], ⟨2, 2, 2, 0⟩, Resources.zero⟩
        [⟨"o1", "h1", ⟨1, 1, 1, 0⟩⟩] 5) "o1"
      = (true,
         ⟨[("h1", ⟨CacheStatus.readyOffer, [("o0", ⟨"o0", "h1", ⟨2, 2, 2, 0⟩⟩)]⟩)],
          [("o0", ⟨"h1", 9⟩)], ⟨2, 2, 2, 0⟩, Resources.zero⟩) :=
  claimC4_add_rescind_roundtrip
    ⟨[("h1", ⟨CacheStatus.readyOffer, [("o0", ⟨"o0", "h1", ⟨2, 2, 2, 0⟩⟩)]⟩)],
      [("o0", ⟨"h1", 9⟩)], ⟨2, 2, 2, 0⟩, Resources.zero⟩
    ⟨"o1", "h1", ⟨1, 1, 1, 0⟩⟩ 5
    ⟨CacheStatus.readyOffer, [("o0", ⟨"o0", "h1", ⟨2, 2, 2, 0⟩⟩)]⟩
    (by decide) (by decide) (by decide) (by decide) (by decide)

/-- Claim C5: RemoveExpiredOffers removes exactly the timedOffers entries
whose expiration strictly precedes now, deletes each removed offer from
its host summary's bag, returns the removed entries together with the
number of offers still in timedOffers, and one removal step decrements
exactly the accounting bucket matching the host's status by the removed
offer's resources. -/
theorem claimC5_remove_expired (P : PoolState) (now : Nat) :
    (∀ oid t, (oid, t) ∈ (removeExpiredOffers P now).1 ↔
       ((oid, t) ∈ P.timedOffers ∧ t.expiration < now)) ∧
    (∀ oid t, (oid, t) ∈ (removeExpiredOffers P now).2.1.timedOffers ↔
       ((oid, t) ∈ P.timedOffers ∧ ¬ t.expiration < now)) ∧
    (removeExpiredOffers P now).2.2
      = (removeExpiredOffers P now).2.1.timedOffers.length ∧
    (∀ oid t, (oid, t) ∈ (removeExpiredOffers P now).1 →
       ∀ s, lookupA t.hostname (removeExpiredOffers P now).2.1.hostOfferIndex
           = some s →
         lookupA oid s.offers = none) ∧
    (∀ (Q : PoolState) (e : String × TimedOffer) (s : HostSummary) (o : MOffer),
       lookupA e.2.hostname Q.hostOfferIndex = some s →
       lookupA e.1 s.offers = some o →
       (s.status = CacheStatus.readyOffer →
          (removeExpiredStep Q e).readyResources
            = Q.readyResources.sub (fromOffer o) ∧
          (removeExpiredStep Q e).placingResources = Q.placingResources) ∧
       (s.status = CacheStatus.placingOffer →
          (removeExpiredStep Q e).placingResources
            = Q.placingResources.sub (fromOffer o) ∧
          (removeExpiredStep Q e).readyResources = Q.readyResources)) := by
  refine ⟨?_, ?_, ?_, ?_, ?_⟩
  · intro oid t
    simp [removeExpiredOffers, List.mem_filter]
  · intro oid t
    simp [removeExpiredOffers, foldl_removeExpiredStep_timedOffers,
      List.mem_filter]
  · simp [removeExpiredOffers, foldl_removeExpiredStep_timedOffers]
  · intro oid t hmem s hs
    exact foldl_removeExpiredStep_bag_none _ _ (oid, t) hmem s hs
  · intro Q e s o hl ho
    constructor <;> intro hst <;>
      constructor <;>
        simp [removeExpiredStep, hl, HostSummary.removeMesosOffer, ho, hst,
          decQuantity]

/-- Claim C5 witness: the expired-offer count and the bag deletion at a
concrete two-offer pool where exactly one offer is expired. -/
theorem claimC5_witness :
    (removeExpiredOffers
        ⟨[("h1", ⟨CacheStatus.readyOffer,
            [("o1", ⟨"o1", "h1", ⟨1, 0, 0, 0⟩⟩),
             ("o2", ⟨"o2", "h1", ⟨2, 0, 0, 0⟩⟩)]⟩)],
          [("o1", ⟨"h1", 1⟩), ("o2", ⟨"h1", 9⟩)],
          ⟨3, 0, 0, 0⟩, Resources.zero⟩ 5).2.2
      = (removeExpiredOffers
          ⟨[("h1", ⟨CacheStatus.readyOffer,
              [("o1", ⟨"o1", "h1", ⟨1, 0, 0, 0⟩⟩),
               ("o2", ⟨"o2", "h1", ⟨2, 0, 0, 0⟩⟩)]⟩)],
            [("o1", ⟨"h1", 1⟩), ("o2", ⟨"h1", 9⟩)],
            ⟨3, 0, 0, 0⟩, Resources.zero⟩ 5).2.1.timedOffers.length ∧
    lookupA "o1"
      (HostSummary.mk CacheStatus.readyOffer
        [("o2", ⟨"o2", "h1", ⟨2, 0, 0, 0⟩⟩)]).offers = none := by
  have h := claimC5_remove_expired
    ⟨[("h1", ⟨CacheStatus.readyOffer,
        [("o1", ⟨"o1", "h1", ⟨1, 0, 0, 0⟩⟩),
         ("o2", ⟨"o2", "h1", ⟨2, 0, 0, 0⟩⟩)]⟩)],
      [("o1", ⟨"h1", 1⟩), ("o2", ⟨"h1", 9⟩)],
      ⟨3, 0, 0, 0⟩, Resources.zero⟩ 5
  exact ⟨h.2.2.1,
    h.2.2.2.1 "o1" ⟨"h1", 1⟩ (by decide)
      (HostSummary.mk CacheStatus.readyOffer
        [("o2", ⟨"o2", "h1", ⟨2, 0, 0, 0⟩⟩)]) (by decide)⟩

/-- Claim C2: a ClaimForPlace call with a non-nil filter returns at most
quantity.max_hosts hosts, placing_resources grows by exactly the
componentwise sum of the scalar resources of all offers in the returned
map, and (whenever the ready bucket contains that sum, as it does in every
consistently accounted pool) ready_resources shrinks by exactly that
sum. -/
theorem claimC2_claim_for_place_accounting (P : PoolState) (f : HostFilter)
    (m : List (String × List MOffer)) (P' : PoolState)
    (hok : claimForPlace P (some f) = Except.ok (m, P'))
    (hcont : P.readyResources.contains (mapDelta m)) :
    m.length ≤ f.maxHosts ∧
    P'.placingResources = P.placingResources.add (mapDelta m) ∧
    P'.readyResources.add (mapDelta m) = P.readyResources := by
  obtain ⟨hm, _, _, hplac, hready⟩ := claimForPlace_inv P f m P' hok
  refine ⟨?_, hplac, hready hcont⟩
  rw [hm]
  exact claimStep_foldl_length f P.hostOfferIndex ([], []) (by simp)

/-- Claim C2 witness: a one-host pool claimed with max_hosts 1. -/
theorem claimC2_witness :
    ([("h1", [(⟨"o1", "h1", ⟨1, 1, 1, 0⟩⟩ : MOffer)])].length ≤ 1) ∧
    (PoolState.mk
        [("h1", ⟨CacheStatus.placingOffer, [("o1", ⟨"o1", "h1", ⟨1, 1, 1, 0⟩⟩)]⟩)]
        [("o1", ⟨"h1", 9⟩)] ⟨0, 0, 0, 0⟩ ⟨1, 1, 1, 0⟩).placingResources
      = Resources.add Resources.zero
          (mapDelta [("h1", [⟨"o1", "h1", ⟨1, 1, 1, 0⟩⟩])]) ∧
    Resources.add
      (PoolState.mk
        [("h1", ⟨CacheStatus.placingOffer, [("o1", ⟨"o1", "h1", ⟨1, 1, 1, 0⟩⟩)]⟩)]
        [("o1", ⟨"h1", 9⟩)] ⟨0, 0, 0, 0⟩ ⟨1, 1, 1, 0⟩).readyResources
      (mapDelta [("h1", [⟨"o1", "h1", ⟨1, 1, 1, 0⟩⟩])]) = ⟨1, 1, 1, 0⟩ :=
  claimC2_claim_for_place_accounting
    ⟨[("h1", ⟨CacheStatus.readyOffer, [("o1", ⟨"o1", "h1", ⟨1, 1, 1, 0⟩⟩)]⟩)],
      [("o1", ⟨"h1", 9⟩)], ⟨1, 1, 1, 0⟩, Resources.zero⟩
    ⟨1, Resources.zero⟩
    [("h1", [⟨"o1", "h1", ⟨1, 1, 1, 0⟩⟩])]
    (PoolState.mk
      [("h1", ⟨CacheStatus.placingOffer, [("o1", ⟨"o1", "h1", ⟨1, 1, 1, 0⟩⟩)]⟩)]
      [("o1", ⟨"h1", 9⟩)] ⟨0, 0, 0, 0⟩ ⟨1, 1, 1, 0⟩)
    (by decide) (by decide)

/-- Claim C1: a host whose summary is PLACING when ClaimForPlace runs is
never in the returned map, and two ClaimForPlace calls separated only by
operations other than ReturnUnusedOffers and ClaimForLaunch (and with no
expired-status reset, which this model does not perform) return disjoint
host sets, so at most one placement attempt holds any host at a time. -/
theorem claimC1_no_double_claim (P : PoolState) (f₁ f₂ : HostFilter)
    (ops : List PoolOp) (m₁ m₂ : List (String × List MOffer)) (P₁ P₂ : PoolState)
    (hwf : wfPool P)
    (h₁ : claimForPlace P (some f₁) = Except.ok (m₁, P₁))
    (hops : ∀ op ∈ ops, allowedBetweenClaims op = true)
    (h₂ : claimForPlace (ops.foldl applyOp P₁) (some f₂) = Except.ok (m₂, P₂)) :
    (∀ h s, lookupA h P.hostOfferIndex = some s →
       s.status = CacheStatus.placingOffer → ∀ x, (h, x) ∉ m₁) ∧
    (∀ h x y, (h, x) ∈ m₁ → (h, y) ∉ m₂) := by
  have hwfP₁ : wfPool P₁ := by
    have happ : applyOp P (PoolOp.claimPlace (some f₁)) = P₁ := by
      simp [applyOp, h₁]
    rw [← happ]
    exact wf_applyOp P _ hwf
  have hwfMid : wfPool (ops.foldl applyOp P₁) := wf_foldl_applyOp ops P₁ hwfP₁
  constructor
  · exact claimForPlace_not_match_placing P f₁ m₁ P₁ hwf.1 h₁
  · intro h x y hx hy
    obtain ⟨s', hs', hst'⟩ :=
      claimForPlace_matched_placing P f₁ m₁ P₁ hwf.1 h₁ h x hx
    obtain ⟨s'', hs'', hst''⟩ :=
      foldl_applyOp_placing_preserved ops P₁ s' h hops hs' hst'
    exact claimForPlace_not_match_placing _ f₂ m₂ P₂ hwfMid.1 h₂ h s'' hs''
      hst'' y hy

/-- Claim C1 witness: a pool with one READY and one already-PLACING host;
the PLACING host is not claimed, and a host claimed by the first call is
not claimed by an immediately following second call. -/
theorem claimC1_witness :
    ("h2", [(⟨"o2", "h2", ⟨2, 0, 0, 0⟩⟩ : MOffer)])
        ∉ [("h1", [(⟨"o1", "h1", ⟨1, 0, 0, 0⟩⟩ : MOffer)])] ∧
    ("h1", [(⟨"o1", "h1", ⟨1, 0, 0, 0⟩⟩ : MOffer)])
        ∉ ([] : List (String × List MOffer)) := by
  have h := claimC1_no_double_claim
    ⟨[("h1", ⟨CacheStatus.readyOffer, [("o1", ⟨"o1", "h1", ⟨1, 0, 0, 0⟩⟩)]⟩),
      ("h2", ⟨CacheStatus.placingOffer, [("o2", ⟨"o2", "h2", ⟨2, 0, 0, 0⟩⟩)]⟩)],
     [("o1", ⟨"h1", 9⟩), ("o2", ⟨"h2", 9⟩)], ⟨1, 0, 0, 0⟩, ⟨2, 0, 0, 0⟩⟩
    ⟨1, Resources.zero⟩ ⟨1, Resources.zero⟩ []
    [("h1", [⟨"o1", "h1", ⟨1, 0, 0, 0⟩⟩])] []
    (PoolState.mk
      [("h1", ⟨CacheStatus.placingOffer, [("o1", ⟨"o1", "h1", ⟨1, 0, 0, 0⟩⟩)]⟩),
       ("h2", ⟨CacheStatus.placingOffer, [("o2", ⟨"o2", "h2", ⟨2, 0, 0, 0⟩⟩)]⟩)]
      [("o1", ⟨"h1", 9⟩), ("o2", ⟨"h2", 9⟩)] ⟨0, 0, 0, 0⟩ ⟨3, 0, 0, 0⟩)
    (PoolState.mk
      [("h1", ⟨CacheStatus.placingOffer, [("o1", ⟨"o1", "h1", ⟨1, 0, 0, 0⟩⟩)]⟩),
       ("h2", ⟨CacheStatus.placingOffer, [("o2", ⟨"o2", "h2", ⟨2, 0, 0, 0⟩⟩)]⟩)]
      [("o1", ⟨"h1", 9⟩), ("o2", ⟨"h2", 9⟩)] ⟨0, 0, 0, 0⟩ ⟨3, 0, 0, 0⟩)
    (by constructor <;> decide) (by decide)
    (by intro op ho; cases ho) (by decide)
  exact ⟨h.1 "h2" ⟨CacheStatus.placingOffer, [("o2", ⟨"o2", "h2", ⟨2, 0, 0, 0⟩⟩)]⟩
      (by decide) (by decide) [⟨"o2", "h2", ⟨2, 0, 0, 0⟩⟩],
    h.2 "h1" [⟨"o1", "h1", ⟨1, 0, 0, 0⟩⟩] [⟨"o1", "h1", ⟨1, 0, 0, 0⟩⟩]
      (by decide)⟩

/-- Claim C6, counterexample: releasing a host is not idempotent in the
error sense the claim states: after an acquire and one successful release
(which restores the original pool exactly), a repeated release of the
now-READY host leaves the state unchanged but reports a CAS error rather
than no error. -/
theorem claimC6_counterexample :
    claimForPlace
        ⟨[("h1", ⟨CacheStatus.readyOffer, [("o1", ⟨"o1", "h1", ⟨1, 0, 0, 0⟩⟩)]⟩)],
          [("o1", ⟨"h1", 5⟩)], ⟨1, 0, 0, 0⟩, ⟨0, 0, 0, 0⟩⟩
        (some ⟨1, Resources.zero⟩)
      = Except.ok ([("h1", [⟨"o1", "h1", ⟨1, 0, 0, 0⟩⟩])],
          ⟨[("h1", ⟨CacheStatus.placingOffer,
              [("o1", ⟨"o1", "h1", ⟨1, 0, 0, 0⟩⟩)]⟩)],
            [("o1", ⟨"h1", 5⟩)], ⟨0, 0, 0, 0⟩, ⟨1, 0, 0, 0⟩⟩) ∧
    returnUnusedOffers
        ⟨[("h1", ⟨CacheStatus.placingOffer,
            [("o1", ⟨"o1", "h1", ⟨1, 0, 0, 0⟩⟩)]⟩)],
          [("o1", ⟨"h1", 5⟩)], ⟨0, 0, 0, 0⟩, ⟨1, 0, 0, 0⟩⟩ "h1"
      = Except.ok
          ⟨[("h1", ⟨CacheStatus.readyOffer, [("o1", ⟨"o1", "h1", ⟨1, 0, 0, 0⟩⟩)]⟩)],
            [("o1", ⟨"h1", 5⟩)], ⟨1, 0, 0, 0⟩, ⟨0, 0, 0, 0⟩⟩ ∧
    returnUnusedOffers
        ⟨[("h1", ⟨CacheStatus.readyOffer, [("o1", ⟨"o1", "h1", ⟨1, 0, 0, 0⟩⟩)]⟩)],
          [("o1", ⟨"h1", 5⟩)], ⟨1, 0, 0, 0⟩, ⟨0, 0, 0, 0⟩⟩ "h1"
      = Except.error "Invalid status" :=
  ⟨by decide, by decide, by decide⟩

/-- Claim C6, amended: releasing a host acquired by ClaimForPlace restores
it to READY with the original scalars (for a single-host claim the whole
pool returns to its pre-acquire state), and a release of a host no longer
in the pool is a silent no-op; but a repeated release of a host that is
already READY leaves the pool state unchanged while reporting the CAS
error, rather than no error. -/
theorem claimC6_release_round_trip (P P₁ : PoolState) (f : HostFilter)
    (h : String) (offs : List MOffer) :
    (wfPool P →
     claimForPlace P (some f) = Except.ok ([(h, offs)], P₁) →
     P.readyResources.contains (mapDelta [(h, offs)]) →
     P.placingResources.nonneg →
     ∃ P₂, returnUnusedOffers P₁ h = Except.ok P₂ ∧
       P₂.timedOffers = P.timedOffers ∧
       P₂.readyResources = P.readyResources ∧
       P₂.placingResources = P.placingResources ∧
       (∀ k, lookupA k P₂.hostOfferIndex = lookupA k P.hostOfferIndex)) ∧
    (∀ Q : PoolState, ∀ k, lookupA k Q.hostOfferIndex = none →
       returnUnusedOffers Q k = Except.ok Q) ∧
    (∀ (Q : PoolState) (k : String) (s : HostSummary),
       lookupA k Q.hostOfferIndex = some s →
       s.status = CacheStatus.readyOffer →
       returnUnusedOffers Q k = Except.error "Invalid status") := by
  refine ⟨?_, ?_, ?_⟩
  · intro hwf hok hcont hplnn
    obtain ⟨hm, hpidx, hptimed, hplac, hready⟩ := claimForPlace_inv P f _ P₁ hok
    obtain ⟨madd, iadd, h1, h2, h3, h4⟩ := claimStep_foldl_spec f P.hostOfferIndex [] []
    have hmadd : madd = [(h, offs)] := by simpa using (hm.trans h1).symm
    subst hmadd
    obtain ⟨s, hsmem, hsmatch, hoffs, hiadd⟩ := h4 (h, offs) (by simp)
    dsimp only at hsmem hsmatch hoffs hiadd
    have hls : lookupA h P.hostOfferIndex = some s := mem_lookupA_of_nodup hwf.1 hsmem
    have hnodup : (iadd.map Prod.fst).Nodup := by
      rw [forall2_keys h3]
      exact hwf.1
    have hliadd : lookupA h iadd
        = some { s with status := CacheStatus.placingOffer } :=
      mem_lookupA_of_nodup hnodup hiadd
    have hP₁idx : P₁.hostOfferIndex = iadd := by
      rw [hpidx, h2, List.nil_append]
    have hsc : s.status = CacheStatus.readyOffer ∧
        s.unreservedAmount.contains f.required :=
      of_decide_eq_true (by simpa [matchHost] using hsmatch)
    have hsready : s.status = CacheStatus.readyOffer := hsc.1
    have hdelta : mapDelta [(h, offs)] = bagSum s.offers := by
      simp [mapDelta, hoffs, bagSum, Resources.add_zero]
    have hlook : lookupA h P₁.hostOfferIndex
        = some ⟨CacheStatus.placingOffer, s.offers⟩ := by
      rw [hP₁idx]
      exact hliadd
    have hres : returnUnusedOffers P₁ h = Except.ok
        { P₁ with
          hostOfferIndex :=
            insertA h ⟨CacheStatus.readyOffer, s.offers⟩ P₁.hostOfferIndex,
          placingResources := decQuantity P₁.placingResources (bagSum s.offers),
          readyResources := incQuantity P₁.readyResources (bagSum s.offers) } := by
      simp [returnUnusedOffers, hlook, HostSummary.casStatus,
        HostSummary.unreservedAmount]
    refine ⟨_, hres, ?_, ?_, ?_, ?_⟩
    · simpa using hptimed
    · show incQuantity P₁.readyResources (bagSum s.offers) = P.readyResources
      rw [incQuantity, ← hdelta]
      exact hready hcont
    · show decQuantity P₁.placingResources (bagSum s.offers) = P.placingResources
      rw [decQuantity, hplac, hdelta]
      exact Resources.add_sub_cancel_of_nonneg _ hplnn
    · intro k
      show lookupA k
          (insertA h ⟨CacheStatus.readyOffer, s.offers⟩ P₁.hostOfferIndex)
        = lookupA k P.hostOfferIndex
      rw [hP₁idx]
      by_cases hk : h = k
      · subst hk
        rw [lookupA_insertA_self, hls]
        have hseq : (⟨CacheStatus.readyOffer, s.offers⟩ : HostSummary) = s := by
          obtain ⟨st, offs2⟩ := s
          simp only at hsready
          rw [hsready]
        rw [hseq]
      · rw [lookupA_insertA_ne _ _ hk]
        rcases lookupA_forall2P h3 k with ⟨hn1, hn2⟩ | ⟨v₁, v₂, hv1, hv2, hrel⟩
        · rw [hn1, hn2]
        · rw [hv1, hv2]
          rcases hrel with hb | ⟨_, _, hbmem⟩
          · dsimp only at hb
            rw [hb]
          · dsimp only at hbmem
            have hkh : k = h := congrArg Prod.fst (List.mem_singleton.mp hbmem)
            exact absurd hkh.symm hk
  · intro Q k hl
    simp [returnUnusedOffers, hl]
  · intro Q k s hl hst
    simp [returnUnusedOffers, hl, HostSummary.casStatus, hst]

/-- Claim C6 witness: the silent no-op on a missing host and the CAS error
on a READY host, at concrete pools. -/
theorem claimC6_witness :
    returnUnusedOffers
        ⟨[("h1", ⟨CacheStatus.readyOffer, [("o1", ⟨"o1", "h1", ⟨1, 0, 0, 0⟩⟩)]⟩)],
          [("o1", ⟨"h1", 5⟩)], ⟨1, 0, 0, 0⟩, ⟨0, 0, 0, 0⟩⟩ "h9"
      = Except.ok
          ⟨[("h1", ⟨CacheStatus.readyOffer, [("o1", ⟨"o1", "h1", ⟨1, 0, 0, 0⟩⟩)]⟩)],
            [("o1", ⟨"h1", 5⟩)], ⟨1, 0, 0, 0⟩, ⟨0, 0, 0, 0⟩⟩ ∧
    returnUnusedOffers
        ⟨[("h1", ⟨CacheStatus.readyOffer, [("o1", ⟨"o1", "h1", ⟨1, 0, 0, 0⟩⟩)]⟩)],
          [("o1", ⟨"h1", 5⟩)], ⟨1, 0, 0, 0⟩, ⟨0, 0, 0, 0⟩⟩ "h1"
      = Except.error "Invalid status" := by
  have hc := claimC6_release_round_trip emptyPool emptyPool ⟨1, Resources.zero⟩
    "h1" []
  exact ⟨hc.2.1 _ "h9" (by decide),
    hc.2.2 _ "h1" ⟨CacheStatus.readyOffer, [("o1", ⟨"o1", "h1", ⟨1, 0, 0, 0⟩⟩)]⟩
      (by decide) (by decide)⟩

/-- Claim C8 counterexample to the unrestricted statement: two AddOffers
calls reusing the offer id "o1" for different hostnames leave "o1" in both
"h1"'s and "h2"'s offer bags although its timed_offers entry records "h2",
so the offer id is not in exactly one host summary's bag. -/
theorem claimC8_counterexample :
    lookupA "o1"
        (runOps [PoolOp.add [⟨"o1", "h1", Resources.zero⟩] 5,
          PoolOp.add [⟨"o1", "h2", Resources.zero⟩] 5]).timedOffers
      = some ⟨"h2", 5⟩ ∧
    ((lookupA "h1"
        (runOps [PoolOp.add [⟨"o1", "h1", Resources.zero⟩] 5,
          PoolOp.add [⟨"o1", "h2", Resources.zero⟩] 5]).hostOfferIndex).map
      (fun s => (lookupA "o1" s.offers).isSome)) = some true ∧
    ((lookupA "h2"
        (runOps [PoolOp.add [⟨"o1", "h1", Resources.zero⟩] 5,
          PoolOp.add [⟨"o1", "h2", Resources.zero⟩] 5]).hostOfferIndex).map
      (fun s => (lookupA "o1" s.offers).isSome)) = some true := by
  refine ⟨by decide, by decide, by decide⟩

/-- Claim C8 (amended): in every pool state reachable from the empty pool
by a sequence of AddOffers, RescindOffer, RemoveExpiredOffers,
ClaimForPlace, ClaimForLaunch and ReturnUnusedOffers whose added offers
respect a global hostname assignment for offer ids (Mesos offer ids are
globally unique, so real traces do), every offer id present in
timed_offers is recorded under its assigned hostname, is present in that
host summary's offer bag, and is present in no other host summary's bag. -/
theorem claimC8_offer_bag_invariant (hostOf : String → String)
    (ops : List PoolOp) (hops : ∀ op ∈ ops, opConsistent hostOf op) :
    ∀ oid t, lookupA oid (runOps ops).timedOffers = some t →
      t.hostname = hostOf oid ∧
      (∃ s, lookupA (hostOf oid) (runOps ops).hostOfferIndex = some s ∧
        (lookupA oid s.offers).isSome) ∧
      (∀ h s, lookupA h (runOps ops).hostOfferIndex = some s →
        (lookupA oid s.offers).isSome → h = hostOf oid) := by
  intro oid t htl
  have hinv : bagInv hostOf (runOps ops) :=
    bagInv_foldl_applyOp hostOf ops emptyPool
      ⟨List.nodup_nil, List.nodup_nil⟩ (bagInv_emptyPool hostOf) hops
  obtain ⟨hhn, hpres⟩ := hinv.2 oid t htl
  refine ⟨hhn, hpres, ?_⟩
  intro h s hls hsome
  cases hx : lookupA oid s.offers with
  | none =>
      rw [hx] at hsome
      cases hsome
  | some x =>
      exact (hinv.1 h s hls oid x hx).symm

/-- Claim C8 witness: a concrete consistent one-add trace, its timed
entry recorded under the assigned host and present in that host's bag. -/
theorem claimC8_witness :
    (⟨"h1", 5⟩ : TimedOffer).hostname = (fun _ : String => "h1") "o1" ∧
    (∃ s, lookupA ((fun _ : String => "h1") "o1")
        (runOps [PoolOp.add [⟨"o1", "h1", Resources.zero⟩] 5]).hostOfferIndex
          = some s ∧
      (lookupA "o1" s.offers).isSome) := by
  have h := claimC8_offer_bag_invariant (fun _ => "h1")
    [PoolOp.add [⟨"o1", "h1", Resources.zero⟩] 5]
    (by
      intro op hop
      simp only [List.mem_singleton] at hop
      subst hop
      intro o ho
      simp only [List.mem_singleton] at ho
      subst ho
      rfl)
    "o1" ⟨"h1", 5⟩ (by decide)
  exact ⟨h.1, h.2.1⟩

end Peloton
